import Mathlib

/-!
Formal model of the offshore wind-farm collection/export optimizer
(src/config.py, src/network.py, src/optimizer.py) together with theorems
settling the specification's claims against the code.

Modelling conventions.

* Python floats are modelled as exact rationals; the value `float("inf")`
  is modelled as `⊤` in `WithTop ℚ`.  Python's `0.0 * inf` (a NaN) is never
  evaluated by any statement proved below.
* `math.sqrt((x1-x2)**2 + (y1-y2)**2)` is irrational in general.  Every
  distance comparison performed by the source (`dist < min_distance` in
  `build_rooted_mst`) is modelled on squared distances, which yields exactly
  the same comparison results because the square root is strictly monotone
  on nonnegative reals and every finite value compares below `inf`.  Where a
  genuine length is multiplied into a cost (`Edge.get_cost`), the length
  function is passed as an explicit parameter; no theorem below depends on
  its values.
* Python code that can raise, or that can loop forever, is modelled with the
  result type `Py α` (`ok` / `exn msg` / `div`), where `div` marks an
  infinite loop of the source.  Unbounded loops and recursions are modelled
  with explicit fuel; the fuel chosen is provably sufficient in every
  situation the source reaches, and exhaustion maps to `div`.
* Python dictionaries keyed by identifiers are modelled as association
  lists with insert-or-overwrite assignment; object attribute mutation
  (`network.py`'s relationship lists) is modelled as explicit state keyed by
  `node_id`, which is faithful whenever the node identifiers involved are
  pairwise distinct.
-/

namespace WindFarm

/-- Result of running a piece of Python code: a value, a raised exception
(identified by its message), or divergence (an infinite loop). -/
inductive Py (α : Type) where
  | ok (val : α)
  | exn (msg : String)
  | div
deriving DecidableEq

/-- Sequencing of Python computations: exceptions and divergence propagate. -/
def Py.bind {α β : Type} : Py α → (α → Py β) → Py β
  | .ok a, f => f a
  | .exn m, _ => .exn m
  | .div, _ => .div

/-- Mapping over the result of a Python computation. -/
def Py.map {α β : Type} (f : α → β) : Py α → Py β
  | .ok a => .ok (f a)
  | .exn m => .exn m
  | .div => .div

/-- Role of a node object: `config.Node` (plain), `network.Turbine`, or
`network.CCP`.  The source distinguishes them with `isinstance` checks. -/
inductive NodeKind where
  | plain
  | turbine
  | ccp
deriving DecidableEq

/-- Dataclass `config.Node` (node_id, x, y), together with the dynamic class
tag used by the source's `isinstance` dispatch.  Equality is Python dataclass
equality: same class and same field values. -/
structure Node where
  kind : NodeKind
  node_id : ℤ
  x : ℚ
  y : ℚ
deriving DecidableEq

/-- Square of `config.get_dist`: the source compares
`math.sqrt((x1-x2)**2 + (y1-y2)**2)` values; comparing the radicands is
equivalent since `sqrt` is strictly monotone. -/
def get_dist_sq (n1 n2 : Node) : ℚ :=
  (n1.x - n2.x) ^ 2 + (n1.y - n2.y) ^ 2

/-- Dataclass `config.CableType`.  `cost_per_meter` lives in `WithTop ℚ`
because the source materialises `CableType("DummyCable", 0.0, float("inf"))`. -/
structure CableType where
  name : String
  capacity : ℚ
  cost_per_meter : WithTop ℚ
deriving DecidableEq

/-- Dataclass `config.TransformerType`. -/
structure TransformerType where
  name : String
  rated_power : ℚ
  cost : ℚ
deriving DecidableEq

/-- Dataclass `config.Edge` with its default field values. -/
structure Edge where
  node1 : Node
  node2 : Node
  flow : ℚ := 0
  cable_type : Option CableType := none
  num_cables : ℤ := 0
deriving DecidableEq

/-- Method `config.Edge.get_cost` (src/config.py lines 41-48): `0.0` when no
cable type is assigned, otherwise `num_cables * cost_per_meter * distance`.
The Euclidean length function is a parameter (see the module conventions). -/
def Edge.get_cost (len : Node → Node → ℚ) (e : Edge) : WithTop ℚ :=
  match e.cable_type with
  | none => 0
  | some c => ((e.num_cables : ℚ) : WithTop ℚ) * c.cost_per_meter * ((len e.node1 e.node2 : ℚ) : WithTop ℚ)

/-- Python `int()` applied to a float: truncation toward zero. -/
def pyInt (q : ℚ) : ℤ :=
  if 0 ≤ q then ⌊q⌋ else ⌈q⌉

/-- Lookup in an association list modelling a Python dict (keys are unique
in every dict the source builds, so first-match lookup is dict lookup). -/
def alookup {κ β : Type} [DecidableEq κ] : List (κ × β) → κ → Option β
  | [], _ => none
  | p :: rest, k => if p.1 = k then some p.2 else alookup rest k

/-- Python dict assignment `d[k] = v`: overwrite the existing binding in
place, or append a new binding (insertion order). -/
def aset {κ β : Type} [DecidableEq κ] : List (κ × β) → κ → β → List (κ × β)
  | [], k, v => [(k, v)]
  | p :: rest, k, v => if p.1 = k then (k, v) :: rest else p :: aset rest k v

/-! ## Cable bundle selection (src/network.py lines 112-129) -/

/-- Placeholder `CableType("DummyCable", 0.0, float("inf"))` initialising the
selection in `select_cable_bundle`. -/
def dummyCable : CableType := ⟨"DummyCable", 0, ⊤⟩

/-- Loop body of `network.select_cable_bundle`, threading the running best
option and best cost-per-meter.  A catalog entry with capacity `0.0` makes
the source's `required_flow / cable_type.capacity` raise `ZeroDivisionError`. -/
def select_go (required_flow : ℚ) :
    List CableType → CableType × ℤ → WithTop ℚ → Py ((CableType × ℤ) × WithTop ℚ)
  | [], best, bestCost => .ok (best, bestCost)
  | c :: rest, best, bestCost =>
    if c.capacity = 0 then .exn "ZeroDivisionError" else
    let num : ℤ := ⌈required_flow / c.capacity⌉
    let cpm : WithTop ℚ := ((num : ℚ) : WithTop ℚ) * c.cost_per_meter
    if cpm < bestCost then select_go required_flow rest (c, num) cpm
    else select_go required_flow rest best bestCost

/-- Function `network.select_cable_bundle` including the tracked
`best_cost_per_meter` value (needed to state the monotonicity claim). -/
def select_cable_bundle_full (required_flow : ℚ) (cable_options : List CableType) :
    Py ((CableType × ℤ) × WithTop ℚ) :=
  select_go required_flow cable_options (dummyCable, 0) ⊤

/-- Function `network.select_cable_bundle`: the returned `(cable, count)` pair. -/
def select_cable_bundle (required_flow : ℚ) (cable_options : List CableType) :
    Py (CableType × ℤ) :=
  (select_cable_bundle_full required_flow cable_options).map (·.1)

/-! ## Rooted MST construction (src/network.py lines 41-82) -/

/-- Rooted tree structure built by `build_rooted_mst`:
`parent node_id ↦ list of (child, edge)` pairs. -/
abbrev TreeMap : Type := List (ℤ × List (Node × Edge))

/-- Body of the inner `for other_node in nodes` loop of Prim's pair scan:
for an out-of-tree candidate, keep it iff its distance strictly improves the
running minimum.  `min_edge` and `parent_node` are always updated together
with `min_edge.node1 = parent_node`, so the state carries the
`(parent, child)` pair. -/
def scanInner (in_mst : List ℤ) (node : Node)
    (acc : WithTop ℚ × Option (Node × Node)) (other : Node) :
    WithTop ℚ × Option (Node × Node) :=
  if other.node_id ∉ in_mst then
    if ((get_dist_sq node other : ℚ) : WithTop ℚ) < acc.1 then
      (((get_dist_sq node other : ℚ) : WithTop ℚ), some (node, other))
    else acc
  else acc

/-- Body of the outer `for node in nodes` loop of Prim's pair scan. -/
def scanOuter (nodes : List Node) (in_mst : List ℤ)
    (acc : WithTop ℚ × Option (Node × Node)) (node : Node) :
    WithTop ℚ × Option (Node × Node) :=
  if node.node_id ∈ in_mst then nodes.foldl (scanInner in_mst node) acc else acc

/-- Pair scan of one Prim iteration: over all `(in-tree node, out-of-tree
node)` pairs, in list order, keep the first strict minimiser of the distance.
`min_distance` starts at `float("inf")` (`⊤`); distances are compared via
their squares. -/
def scanPairs (nodes : List Node) (in_mst : List ℤ) :
    WithTop ℚ × Option (Node × Node) :=
  nodes.foldl (scanOuter nodes in_mst) (⊤, none)

/-- Edge materialised by Prim's loop: `Edge(node, other_node)` with the
dataclass defaults (flow `0.0`, no cable, `0` cables). -/
def mkEdge (parent child : Node) : Edge := { node1 := parent, node2 := child }

/-- Tree-structure update of `build_rooted_mst`: ensure the parent key exists,
then append `(child, edge)` to its list. -/
def treeAdd (tree : TreeMap) (parent child : Node) : TreeMap :=
  match alookup tree parent.node_id with
  | none => tree ++ [(parent.node_id, [(child, mkEdge parent child)])]
  | some entries => aset tree parent.node_id (entries ++ [(child, mkEdge parent child)])

/-- The `while len(in_mst) < len(nodes)` loop of `build_rooted_mst`.  The
source's `in_mst` is a set of identifiers; it is modelled as the list of
identifiers in insertion order (the loop only ever inserts fresh ones, so the
list length is the set size).  An iteration that finds no `(in, out)` pair
leaves the state unchanged, so the source loops forever: that case, and fuel
exhaustion (which a sufficient fuel never reaches), map to `div`. -/
def primLoop (nodes : List Node) :
    ℕ → List ℤ → List Edge → TreeMap → Py (List Edge × TreeMap)
  | 0, in_mst, edges, tree =>
    if in_mst.length < nodes.length then .div else .ok (edges, tree)
  | fuel + 1, in_mst, edges, tree =>
    if in_mst.length < nodes.length then
      match (scanPairs nodes in_mst).2 with
      | none => .div
      | some (parent, child) =>
        primLoop nodes fuel (in_mst ++ [child.node_id])
          (edges ++ [mkEdge parent child]) (treeAdd tree parent child)
    else .ok (edges, tree)

/-- Function `network.build_rooted_mst` (src/network.py lines 41-82). -/
def build_rooted_mst (nodes : List Node) : Py (List Edge × TreeMap) :=
  match nodes with
  | [] => .ok ([], [])
  | root :: rest =>
    if rest.isEmpty then .ok ([], [])
    else primLoop nodes nodes.length [root.node_id] [] [(root.node_id, [])]

/-! ## Flow propagation (src/network.py lines 85-109) -/

/-- The `for child, edge in tree[node.node_id]` loop inside the `dfs` closure
of `calculate_flows`: recurse into each child (via the callback `rec`), record
`flows[edge_key] = child_power`, and accumulate the running total. -/
def dfsKids (rec : Node → List ((ℤ × ℤ) × ℚ) → Option (List ((ℤ × ℤ) × ℚ) × ℚ)) :
    List (Node × Edge) → List ((ℤ × ℤ) × ℚ) × ℚ →
    Option (List ((ℤ × ℤ) × ℚ) × ℚ)
  | [], acc => some acc
  | ce :: rest, acc =>
    match rec ce.1 acc.1 with
    | none => none
    | some res =>
      dfsKids rec rest
        (aset res.1 (ce.2.node1.node_id, ce.2.node2.node_id) res.2, acc.2 + res.2)

/-- Recursive `dfs` closure of `network.calculate_flows`: returns the updated
flow dict together with the subtree's total power.  A node contributes
`turbine_power` iff it is a `Turbine` (`isinstance` check); the flow recorded
on an edge is its child subtree's power.  The source recursion is unbounded;
fuel exhaustion is modelled as `none` (it is unreachable with fuel at least
the tree height, as proved below for builder trees). -/
def dfs (tree : TreeMap) (turbine_power : ℚ) :
    ℕ → Node → List ((ℤ × ℤ) × ℚ) → Option (List ((ℤ × ℤ) × ℚ) × ℚ)
  | 0, _, _ => none
  | fuel + 1, node, flows =>
    match alookup tree node.node_id with
    | none => some (flows, if node.kind = NodeKind.turbine then turbine_power else 0)
    | some children =>
      dfsKids (fun child fl => dfs tree turbine_power fuel child fl) children
        (flows, if node.kind = NodeKind.turbine then turbine_power else 0)

/-- Function `network.calculate_flows`: run `dfs` from the CCP and return the
flow dict.  `fuel` bounds the recursion depth (see `dfs`). -/
def calculate_flows (tree : TreeMap) (ccp : Node) (turbine_power : ℚ) (fuel : ℕ) :
    Option (List ((ℤ × ℤ) × ℚ)) :=
  (dfs tree turbine_power fuel ccp []).map (·.1)

/-! ## Cable assignment and the collection-network builder
(src/network.py lines 132-201) -/

/-- Step 3 of `design_collection_network` (src/network.py lines 186-193):
for each MST edge, look its key up in the flow map; when present, select a
bundle and set `flow`, `cable_type`, `num_cables` on the edge — when absent,
the edge is left untouched (no exception is raised by the source). -/
def assign_cables (cable_options : List CableType) (flows : List ((ℤ × ℤ) × ℚ)) :
    List Edge → Py (List Edge)
  | [] => .ok []
  | e :: rest =>
    match alookup flows (e.node1.node_id, e.node2.node_id) with
    | none => (assign_cables cable_options flows rest).map (e :: ·)
    | some fl =>
      (select_cable_bundle fl cable_options).bind fun cn =>
        (assign_cables cable_options flows rest).map
          ({ e with flow := fl, cable_type := some cn.1, num_cables := cn.2 } :: ·)

/-- Mutable relationship state of the node objects: each turbine's
`neighbors` list (keyed by `node_id`, all initially `[]`) and the CCP's
`connected_turbines` list. -/
structure NState where
  nbrs : List (ℤ × List Node)
  ccp_connected : List Node
deriving DecidableEq

/-- Current `neighbors` list of the node with identifier `i`. -/
def neighbors_of (s : NState) (i : ℤ) : List Node :=
  (alookup s.nbrs i).getD []

/-- Effect of `Turbine.add_neighbor` on the state. -/
def add_neighbor (s : NState) (i : ℤ) (n : Node) : NState :=
  { s with nbrs := aset s.nbrs i (neighbors_of s i ++ [n]) }

/-- Loop body of `network.update_node_connections` (src/network.py lines
150-166), translated guard for guard.  Note the source tests
`edge.node1.node_id not in [n.node_id for n in edge.node1.neighbors]` — the
node's own identifier against its neighbors' identifiers — and similarly for
`node2`; that test is translated verbatim.  The membership test on
`ccp.connected_turbines` is Python dataclass equality. -/
def update_step (s : NState) (edge : Edge) : NState :=
  let s1 :=
    if edge.node1.kind = NodeKind.turbine ∧
        edge.node1.node_id ∉ (neighbors_of s edge.node1.node_id).map (·.node_id) then
      add_neighbor s edge.node1.node_id edge.node2
    else s
  let s2 :=
    if edge.node2.kind = NodeKind.turbine ∧
        edge.node2.node_id ∉ (neighbors_of s1 edge.node2.node_id).map (·.node_id) then
      add_neighbor s1 edge.node2.node_id edge.node1
    else s1
  if edge.node1.kind = NodeKind.ccp ∧ edge.node2.kind = NodeKind.turbine then
    if edge.node2 ∉ s2.ccp_connected then
      { s2 with ccp_connected := s2.ccp_connected ++ [edge.node2] }
    else s2
  else if edge.node2.kind = NodeKind.ccp ∧ edge.node1.kind = NodeKind.turbine then
    if edge.node1 ∉ s2.ccp_connected then
      { s2 with ccp_connected := s2.ccp_connected ++ [edge.node1] }
    else s2
  else s2

/-- Function `network.update_node_connections` (src/network.py lines 132-166).
The local dicts `connections` and `edge_map` built on lines 136-148 are never
read by the rest of the function and have no effect on the state; only the
loop over `edges` is modelled. -/
def update_node_connections (edges : List Edge) (s : NState) : NState :=
  edges.foldl update_step s

/-- Function `network.design_collection_network` (src/network.py lines
169-201): rooted MST, flow propagation, cable assignment, and total cost
(step 4's relationship bookkeeping mutates only node state, not the returned
value, and is modelled separately by `update_node_connections`).  `len` is
the Euclidean length function used for costs. -/
def design_collection_network (turbines : List Node) (ccp : Node)
    (cable_options : List CableType) (turbine_power : ℚ)
    (len : Node → Node → ℚ) : Py (List Edge × WithTop ℚ) :=
  let all_nodes := ccp :: turbines
  (build_rooted_mst all_nodes).bind fun mt =>
    match calculate_flows mt.2 ccp turbine_power all_nodes.length with
    | none => .div
    | some flows =>
      (assign_cables cable_options flows mt.1).bind fun edges =>
        .ok (edges, (edges.map (Edge.get_cost len)).sum)

/-! ## Transformer sizing DP (src/optimizer.py lines 35-51) -/

/-- Python list indexing semantics for assignments/reads `dp[i]`: a negative
index counts from the end; anything further out raises `IndexError`. -/
def pyIdx (length : ℕ) (i : ℤ) : Option ℕ :=
  if 0 ≤ i ∧ i < (length : ℤ) then some i.toNat
  else if -(length : ℤ) ≤ i ∧ i < 0 then some ((length : ℤ) + i).toNat
  else none

/-- Inner loop of the transformer DP: for one reachable power level `p`, relax
`dp[min(max_power, p + int(tr.rated_power))]` with `dp[p] + tr.cost` for each
transformer type in order (the source re-reads `dp[p]` on every iteration).
`none` models `IndexError`. -/
def dp_inner (max_power p : ℕ) :
    List TransformerType → List (WithTop ℚ) → Option (List (WithTop ℚ))
  | [], dp => some dp
  | tr :: rest, dp =>
    match pyIdx dp.length (min (max_power : ℤ) ((p : ℤ) + pyInt tr.rated_power)) with
    | none => none
    | some idx =>
      dp_inner max_power p rest
        (dp.set idx (min (dp.getD idx ⊤) (dp.getD p ⊤ + (tr.cost : WithTop ℚ))))

/-- Outer loop of the transformer DP over the power levels `ps`, skipping
levels whose cost is still `inf`. -/
def dp_outer (max_power : ℕ) (transformers : List TransformerType) :
    List ℕ → List (WithTop ℚ) → Option (List (WithTop ℚ))
  | [], dp => some dp
  | p :: rest, dp =>
    if dp.getD p ⊤ = ⊤ then dp_outer max_power transformers rest dp
    else
      match dp_inner max_power p transformers dp with
      | none => none
      | some dp' => dp_outer max_power transformers rest dp'

/-- The transformer-sizing dynamic program of `optimizer.compute_export_cost`
(src/optimizer.py lines 35-48): `dp = [INF] * (max_power + 1)`, `dp[0] = 0.0`,
then relax over `p in range(max_power + 1)`. -/
def transformer_dp (max_power : ℕ) (transformers : List TransformerType) :
    Option (List (WithTop ℚ)) :=
  dp_outer max_power transformers (List.range (max_power + 1))
    ((List.replicate (max_power + 1) (⊤ : WithTop ℚ)).set 0 0)

/-! ## DP path reconstruction (src/optimizer.py lines 53-101) -/

/-- Python float literal `1e-9`, the reconstruction's fallback tolerance. -/
def tol9 : ℚ := 1 / 1000000000

/-- First pass of the reconstruction step: the first transformer whose
clamped predecessor level satisfies `dp[prev] + cost == remaining` exactly.
Returns the transformer together with the predecessor level.  The source's
`prev_power <= cur_power` test short-circuits the `dp` access, so the model's
total `getD` is only evaluated when the source would index safely. -/
def find_exact (dp : List (WithTop ℚ)) (cur : ℕ) (remaining : ℚ) :
    List TransformerType → Option (TransformerType × ℕ)
  | [] => none
  | tr :: rest =>
    let prevZ : ℤ := max 0 ((cur : ℤ) - pyInt tr.rated_power)
    if prevZ ≤ (cur : ℤ) ∧ dp.getD prevZ.toNat ⊤ + (tr.cost : WithTop ℚ) = ((remaining : ℚ) : WithTop ℚ) then
      some (tr, prevZ.toNat)
    else find_exact dp cur remaining rest

/-- Second (tolerance) pass of the reconstruction step:
`dp[prev] + cost <= remaining + 1e-9`. -/
def find_tol (dp : List (WithTop ℚ)) (cur : ℕ) (remaining : ℚ) :
    List TransformerType → Option (TransformerType × ℕ)
  | [] => none
  | tr :: rest =>
    let prevZ : ℤ := max 0 ((cur : ℤ) - pyInt tr.rated_power)
    if prevZ ≤ (cur : ℤ) ∧ dp.getD prevZ.toNat ⊤ + (tr.cost : WithTop ℚ) ≤ ((remaining + tol9 : ℚ) : WithTop ℚ) then
      some (tr, prevZ.toNat)
    else find_tol dp cur remaining rest

/-- Transformer-usage dict `name ↦ count`. -/
abbrev Usage : Type := List (String × ℕ)

/-- Increment `transformer_usage[name]`, Python `get(name, 0) + 1`. -/
def usageIncr (u : Usage) (name : String) : Usage :=
  aset u name ((alookup u name).getD 0 + 1)

/-- The `while cur_power > 0` reconstruction loop of
`optimizer.compute_export_cost` (src/optimizer.py lines 54-101).  A step that
finds no transformer by either pass raises
`RuntimeError("Unable to reconstruct path for best transformer combination")`.
A step via a transformer with `int(rated_power) == 0` repeats the same state,
so the source loops forever; that is what fuel exhaustion (`div`) captures. -/
def reconstruct (dp : List (WithTop ℚ)) (transformers : List TransformerType) :
    ℕ → ℕ → ℚ → Usage → Py Usage
  | 0, cur, _, usage => if cur = 0 then .ok usage else .div
  | fuel + 1, cur, remaining, usage =>
    if cur = 0 then .ok usage
    else
      match find_exact dp cur remaining transformers with
      | some trp =>
        reconstruct dp transformers fuel trp.2 (remaining - trp.1.cost)
          (usageIncr usage trp.1.name)
      | none =>
        match find_tol dp cur remaining transformers with
        | some trp =>
          reconstruct dp transformers fuel trp.2 (remaining - trp.1.cost)
            (usageIncr usage trp.1.name)
        | none => .exn "RuntimeError: Unable to reconstruct path for best transformer combination"

/-! ## The CCP constructor and its call sites
(src/network.py lines 24-27, src/optimizer.py lines 139 and 198-207) -/

/-- A Python value passed positionally to a constructor. -/
inductive PyVal where
  | int (n : ℤ)
  | num (q : ℚ)
  | usageDict (u : Option Usage)
deriving DecidableEq

/-- Object state produced by `network.CCP.__init__`: the three dataclass
fields plus the `connected_turbines` list it initialises to `[]`.  Python
performs no type checks on the arguments, so the fields hold whatever values
were passed. -/
structure CCPObj where
  node_id : PyVal
  x : PyVal
  y : PyVal
  connected_turbines : List Node
deriving DecidableEq

/-- Python call semantics for `network.CCP(...)` (src/network.py lines 25-27):
`CCP.__init__(self, node_id, x, y)` declares exactly three parameters besides
`self`, so a positional call succeeds iff exactly three arguments are given;
any other count raises `TypeError` before the body runs. -/
def callCCPInit : List PyVal → Py CCPObj
  | [i, a, b] => .ok ⟨i, a, b, []⟩
  | _ => .exn "TypeError"

/-- Argument list of the call `CCP(0, ccp_x, ccp_y, None)` in
`optimizer.total_system_cost` (src/optimizer.py line 139). -/
def total_system_cost_ccp_args (ccp_x ccp_y : ℚ) : List PyVal :=
  [.int 0, .num ccp_x, .num ccp_y, .usageDict none]

/-- Argument list of the final call
`CCP(0, t_opt * cx, t_opt * cy, transformer_usage)` in
`optimizer.optimize_ccp_on_ray` (src/optimizer.py line 207). -/
def optimize_final_ccp_args (t_opt cx cy : ℚ) (transformer_usage : Option Usage) :
    List PyVal :=
  [.int 0, .num (t_opt * cx), .num (t_opt * cy), .usageDict transformer_usage]

/-! ## Observations used to state the spanning-tree and flow claims.
These are specification-side notions (reachability in the rooted tree
structure, the rooted-spanning-tree property), not translations of source
code; the theorems below relate the source translations to them. -/

/-- Reachability along child links of the rooted tree structure, with a fuel
bound on the path length. -/
def reachesB (tree : TreeMap) : ℕ → ℤ → ℤ → Bool
  | 0, a, b => a == b
  | fuel + 1, a, b =>
    a == b || ((alookup tree a).getD []).any (fun ce => reachesB tree fuel ce.1.node_id b)

/-- Fuel-free reachability along child links of the rooted tree structure. -/
def Reaches (tree : TreeMap) (a b : ℤ) : Prop :=
  ∃ f, reachesB tree f a b = true

/-- The turbines of `nodes` lying in the subtree hanging below the node with
identifier `rootId` — for an edge `(p, c)` of the rooted tree, taking
`rootId := c.node_id` gives exactly the turbines separated from the CCP by
that edge. -/
def subtree_turbines (nodes : List Node) (tree : TreeMap) (fuel : ℕ) (rootId : ℤ) :
    List Node :=
  nodes.filter (fun n => n.kind == NodeKind.turbine && reachesB tree fuel rootId n.node_id)

/-- Processed front to back, every edge hangs a new node onto a node already
reached from the root. -/
def connectedToRootB : List Edge → List ℤ → Bool
  | [], _ => true
  | e :: rest, reached =>
    reached.contains e.node1.node_id && connectedToRootB rest (reached ++ [e.node2.node_id])

/-- The edge list is a spanning tree of `nodes` rooted at `root`: one edge
per non-root node, each node entered by exactly one edge (no cycles), every
edge attached to an already-reached node (connected to the root), all nodes
covered, and all endpoints drawn from `nodes`. -/
def spanningB (nodes : List Node) (root : Node) (edges : List Edge) : Bool :=
  decide (edges.length + 1 = nodes.length) &&
  decide (root.node_id :: edges.map (fun e => e.node2.node_id)).Nodup &&
  connectedToRootB edges [root.node_id] &&
  nodes.all (fun n => (root.node_id :: edges.map (fun e => e.node2.node_id)).contains n.node_id) &&
  edges.all (fun e => nodes.contains e.node1 && nodes.contains e.node2)

/-- Position of the first occurrence of `a` in `L` (length of `L` when
absent): the insertion rank of a node identifier in the builder's `in_mst`. -/
def rankIn : List ℤ → ℤ → ℕ
  | [], _ => 0
  | b :: rest, a => if b = a then 0 else rankIn rest a + 1

/-- All `(parent identifier, (child, edge))` triples of the tree structure,
flattened. -/
def treeKeyPairs (tree : TreeMap) : List (ℤ × (Node × Edge)) :=
  tree.foldr (fun p acc => p.2.map (fun ce => (p.1, ce)) ++ acc) []

/-- Invariant of the tree structure built by Prim's loop, relative to the
insertion order `L` of `in_mst`: keys are unique and already inserted, each
entry's edge runs from the keyed parent to the child with both endpoints
drawn from `nodes`, and every child was inserted strictly after its parent. -/
structure TreeInv (nodes : List Node) (tree : TreeMap) (L : List ℤ) : Prop where
  nodupL : L.Nodup
  keys_nodup : (tree.map Prod.fst).Nodup
  keys_mem : ∀ k ∈ tree.map Prod.fst, k ∈ L
  entry_shape : ∀ kce ∈ treeKeyPairs tree,
    kce.2.2 = mkEdge kce.2.2.node1 kce.2.1 ∧ kce.2.2.node1.node_id = kce.1 ∧
    kce.2.1 ∈ nodes ∧ kce.2.2.node1 ∈ nodes
  child_mem : ∀ kce ∈ treeKeyPairs tree, kce.2.1.node_id ∈ L
  key_mem_pair : ∀ kce ∈ treeKeyPairs tree, kce.1 ∈ L
  rank_lt : ∀ kce ∈ treeKeyPairs tree, rankIn L kce.1 < rankIn L kce.2.1.node_id

/-- Invariant of Prim's loop state: `in_mst` records the root followed by the
entered endpoints of the edges in insertion order, without repetition, all
drawn from `nodes`; every edge hangs off an already-reached node; and the
tree structure mirrors the edge list. -/
structure PrimInv (nodes : List Node) (root : Node) (in_mst : List ℤ)
    (edges : List Edge) (tree : TreeMap) : Prop where
  inm_eq : in_mst = root.node_id :: edges.map (fun e => e.node2.node_id)
  inm_nodup : in_mst.Nodup
  inm_sub : ∀ i ∈ in_mst, i ∈ nodes.map (fun n => n.node_id)
  root_mem : root ∈ nodes
  edge_nodes : ∀ e ∈ edges, e.node1 ∈ nodes ∧ e.node2 ∈ nodes
  conn : connectedToRootB edges [root.node_id] = true
  tinv : TreeInv nodes tree in_mst
  pairs_perm : (treeKeyPairs tree).Perm (edges.map (fun e => (e.node1.node_id, (e.node2, e))))

/-- State property maintained by Prim's pair scan: while no pair has been
kept the tracked minimum is still `inf`, and any kept pair joins an in-tree
node to an out-of-tree node, both from `nodes`. -/
def ScanProp (nodes : List Node) (in_mst : List ℤ)
    (st : WithTop ℚ × Option (Node × Node)) : Prop :=
  (st.2 = none → st.1 = ⊤) ∧
  ∀ pc : Node × Node, st.2 = some pc →
    pc.1 ∈ nodes ∧ pc.1.node_id ∈ in_mst ∧ pc.2 ∈ nodes ∧ pc.2.node_id ∉ in_mst

/-- Flow-dict key written by `dfs` for a tree entry:
`(edge.node1.node_id, edge.node2.node_id)`. -/
def edgeKey (kce : ℤ × (Node × Edge)) : ℤ × ℤ :=
  (kce.2.2.node1.node_id, kce.2.2.node2.node_id)

/-- The tree entries whose flow key is written while the `dfs` children loop
processes the child list `cs` of the node with identifier `vId`: the direct
edges to the children of `cs`, and every entry hanging below one of them. -/
def CoveredBy (tree : TreeMap) (vId : ℤ) (cs : List (Node × Edge))
    (kce : ℤ × (Node × Edge)) : Prop :=
  (∃ ce ∈ cs, kce = (vId, ce)) ∨ (∃ ce ∈ cs, Reaches tree ce.1.node_id kce.1)

/-- Cost per unit length of the bundle `select_cable_bundle` computes for one
catalog entry: `ceil(flow / capacity) * cost_per_meter`. -/
def bundle_cost_per_meter (required_flow : ℚ) (c : CableType) : WithTop ℚ :=
  ((⌈required_flow / c.capacity⌉ : ℚ) : WithTop ℚ) * c.cost_per_meter

/-! ## Supporting lemmas -/

theorem select_go_ok (f : ℚ) :
    ∀ (opts : List CableType) (best : CableType × ℤ) (bc : WithTop ℚ),
      (∀ c ∈ opts, c.capacity ≠ 0) → ∃ r, select_go f opts best bc = .ok r := by
  intro opts
  induction opts with
  | nil => exact fun best bc _ => ⟨_, rfl⟩
  | cons c rest ih =>
    intro best bc h
    have hc : c.capacity ≠ 0 := h c (List.mem_cons_self c rest)
    have hr : ∀ c' ∈ rest, c'.capacity ≠ 0 := fun c' hc' => h c' (List.mem_cons_of_mem c hc')
    rw [select_go, if_neg hc]
    dsimp only
    split
    · exact ih _ _ hr
    · exact ih _ _ hr

theorem select_go_zero_div (f : ℚ) :
    ∀ (pre : List CableType) (c : CableType) (post : List CableType)
      (best : CableType × ℤ) (bc : WithTop ℚ),
      c.capacity = 0 → (∀ c' ∈ pre, c'.capacity ≠ 0) →
      select_go f (pre ++ c :: post) best bc = .exn "ZeroDivisionError" := by
  intro pre
  induction pre with
  | nil =>
    intro c post best bc hc _
    rw [List.nil_append, select_go, if_pos hc]
  | cons a rest ih =>
    intro c post best bc hc h
    have ha : a.capacity ≠ 0 := h a (List.mem_cons_self a rest)
    have hr : ∀ c' ∈ rest, c'.capacity ≠ 0 := fun c' hc' => h c' (List.mem_cons_of_mem a hc')
    rw [List.cons_append, select_go, if_neg ha]
    dsimp only
    split
    · exact ih c post _ _ hc hr
    · exact ih c post _ _ hc hr

theorem getD_set_self {α : Type} :
    ∀ (l : List α) (i : ℕ) (v d : α), i < l.length → (l.set i v).getD i d = v := by
  intro l
  induction l with
  | nil => intro i v d h; exact absurd h (Nat.not_lt_zero i)
  | cons a rest ih =>
    intro i v d h
    cases i with
    | zero => rfl
    | succ i => exact ih i v d (Nat.lt_of_succ_lt_succ h)

theorem getD_set_ne {α : Type} :
    ∀ (l : List α) (i j : ℕ) (v d : α), i ≠ j → (l.set i v).getD j d = l.getD j d := by
  intro l
  induction l with
  | nil => intro i j v d _; rfl
  | cons a rest ih =>
    intro i j v d h
    cases i with
    | zero =>
      cases j with
      | zero => exact absurd rfl h
      | succ j => rfl
    | succ i =>
      cases j with
      | zero => rfl
      | succ j => exact ih i j v d (fun e => h (by rw [e]))

theorem pyIdx_of_nonneg {len : ℕ} {i : ℤ} (h0 : 0 ≤ i) (hl : i < (len : ℤ)) :
    pyIdx len i = some i.toNat := by
  rw [pyIdx, if_pos ⟨h0, hl⟩]

theorem pyInt_nonneg {q : ℚ} (h : 0 ≤ q) : 0 ≤ pyInt q := by
  rw [pyInt, if_pos h]
  exact Int.floor_nonneg.mpr h

theorem pyInt_ge_one {q : ℚ} (h : 1 ≤ q) : 1 ≤ pyInt q := by
  rw [pyInt, if_pos (le_trans zero_le_one h)]
  exact Int.le_floor.mpr (by exact_mod_cast h)

theorem dp_inner_spec (max_power p : ℕ) :
    ∀ (trs : List TransformerType) (dp : List (WithTop ℚ)),
      dp.length = max_power + 1 →
      (∀ tr ∈ trs, 0 ≤ pyInt tr.rated_power) →
      ∃ dp', dp_inner max_power p trs dp = some dp' ∧ dp'.length = max_power + 1 ∧
        ∀ i, dp'.getD i ⊤ ≤ dp.getD i ⊤ := by
  intro trs
  induction trs with
  | nil => exact fun dp hl _ => ⟨dp, rfl, hl, fun i => le_refl _⟩
  | cons tr rest ih =>
    intro dp hl h
    have h0 : 0 ≤ pyInt tr.rated_power := h tr (List.mem_cons_self tr rest)
    have hz : (0 : ℤ) ≤ min (max_power : ℤ) ((p : ℤ) + pyInt tr.rated_power) := by
      exact le_min (Int.ofNat_nonneg max_power) (by positivity)
    have hlt : min (max_power : ℤ) ((p : ℤ) + pyInt tr.rated_power) < (dp.length : ℤ) := by
      rw [hl]; push_cast; omega
    have hidx : (min (max_power : ℤ) ((p : ℤ) + pyInt tr.rated_power)).toNat < dp.length := by
      omega
    rw [dp_inner, pyIdx_of_nonneg hz hlt]
    obtain ⟨dp', hdp', hl', hle'⟩ := ih
      (dp.set (min (max_power : ℤ) ((p : ℤ) + pyInt tr.rated_power)).toNat
        (min (dp.getD (min (max_power : ℤ) ((p : ℤ) + pyInt tr.rated_power)).toNat ⊤)
          (dp.getD p ⊤ + (tr.cost : WithTop ℚ))))
      (by rw [List.length_set, hl])
      (fun tr' htr' => h tr' (List.mem_cons_of_mem tr htr'))
    refine ⟨dp', hdp', hl', fun i => le_trans (hle' i) ?_⟩
    by_cases hi : (min (max_power : ℤ) ((p : ℤ) + pyInt tr.rated_power)).toNat = i
    · subst hi
      rw [getD_set_self _ _ _ _ hidx]
      exact min_le_left _ _
    · rw [getD_set_ne _ _ _ _ _ hi]

theorem dp_inner_good (max_power p : ℕ) (g : TransformerType) :
    ∀ (trs : List TransformerType) (dp : List (WithTop ℚ)),
      g ∈ trs → dp.length = max_power + 1 →
      (∀ tr ∈ trs, 0 ≤ pyInt tr.rated_power) →
      dp.getD p ⊤ ≠ ⊤ →
      ∃ dp', dp_inner max_power p trs dp = some dp' ∧ dp'.length = max_power + 1 ∧
        (∀ i, dp'.getD i ⊤ ≤ dp.getD i ⊤) ∧
        dp'.getD (min (max_power : ℤ) ((p : ℤ) + pyInt g.rated_power)).toNat ⊤ ≠ ⊤ := by
  intro trs
  induction trs with
  | nil => intro dp hg; exact absurd hg (List.not_mem_nil g)
  | cons tr rest ih =>
    intro dp hg hl hr hfin
    have h0 : 0 ≤ pyInt tr.rated_power := hr tr (List.mem_cons_self tr rest)
    have hz : (0 : ℤ) ≤ min (max_power : ℤ) ((p : ℤ) + pyInt tr.rated_power) := by
      exact le_min (Int.ofNat_nonneg max_power) (by positivity)
    have hlt : min (max_power : ℤ) ((p : ℤ) + pyInt tr.rated_power) < (dp.length : ℤ) := by
      rw [hl]; push_cast; omega
    have hidx : (min (max_power : ℤ) ((p : ℤ) + pyInt tr.rated_power)).toNat < dp.length := by
      omega
    rw [dp_inner, pyIdx_of_nonneg hz hlt]
    have hstep : ∀ i,
        (dp.set (min (max_power : ℤ) ((p : ℤ) + pyInt tr.rated_power)).toNat
          (min (dp.getD (min (max_power : ℤ) ((p : ℤ) + pyInt tr.rated_power)).toNat ⊤)
            (dp.getD p ⊤ + (tr.cost : WithTop ℚ)))).getD i ⊤ ≤ dp.getD i ⊤ := by
      intro i
      by_cases hi : (min (max_power : ℤ) ((p : ℤ) + pyInt tr.rated_power)).toNat = i
      · subst hi
        rw [getD_set_self _ _ _ _ hidx]
        exact min_le_left _ _
      · rw [getD_set_ne _ _ _ _ _ hi]
    rcases List.mem_cons.mp hg with hg0 | hg'
    · subst hg0
      obtain ⟨dp', hdp', hl', hle'⟩ := dp_inner_spec max_power p rest
        (dp.set (min (max_power : ℤ) ((p : ℤ) + pyInt g.rated_power)).toNat
          (min (dp.getD (min (max_power : ℤ) ((p : ℤ) + pyInt g.rated_power)).toNat ⊤)
            (dp.getD p ⊤ + (g.cost : WithTop ℚ))))
        (by rw [List.length_set, hl])
        (fun tr' htr' => hr tr' (List.mem_cons_of_mem g htr'))
      refine ⟨dp', hdp', hl', fun i => le_trans (hle' i) (hstep i), ?_⟩
      have hsum : dp.getD p ⊤ + (g.cost : WithTop ℚ) ≠ ⊤ :=
        WithTop.add_ne_top.mpr ⟨hfin, WithTop.coe_ne_top⟩
      have hv : min (dp.getD (min (max_power : ℤ) ((p : ℤ) + pyInt g.rated_power)).toNat ⊤)
          (dp.getD p ⊤ + (g.cost : WithTop ℚ)) ≠ ⊤ :=
        ne_top_of_le_ne_top hsum (min_le_right _ _)
      have hset : (dp.set (min (max_power : ℤ) ((p : ℤ) + pyInt g.rated_power)).toNat
          (min (dp.getD (min (max_power : ℤ) ((p : ℤ) + pyInt g.rated_power)).toNat ⊤)
            (dp.getD p ⊤ + (g.cost : WithTop ℚ)))).getD
          (min (max_power : ℤ) ((p : ℤ) + pyInt g.rated_power)).toNat ⊤ ≠ ⊤ := by
        rw [getD_set_self _ _ _ _ hidx]
        exact hv
      exact ne_top_of_le_ne_top hset (hle' _)
    · obtain ⟨dp', hdp', hl', hle', hfin'⟩ := ih
        (dp.set (min (max_power : ℤ) ((p : ℤ) + pyInt tr.rated_power)).toNat
          (min (dp.getD (min (max_power : ℤ) ((p : ℤ) + pyInt tr.rated_power)).toNat ⊤)
            (dp.getD p ⊤ + (tr.cost : WithTop ℚ))))
        hg' (by rw [List.length_set, hl])
        (fun tr' htr' => hr tr' (List.mem_cons_of_mem tr htr'))
        (ne_top_of_le_ne_top hfin (hstep p))
      exact ⟨dp', hdp', hl', fun i => le_trans (hle' i) (hstep i), hfin'⟩

theorem dp_outer_spec (max_power : ℕ) (trs : List TransformerType)
    (hr : ∀ tr ∈ trs, 0 ≤ pyInt tr.rated_power) :
    ∀ (ps : List ℕ) (dp : List (WithTop ℚ)),
      dp.length = max_power + 1 → (∀ q ∈ ps, q ≤ max_power) →
      ∃ dp', dp_outer max_power trs ps dp = some dp' ∧ dp'.length = max_power + 1 ∧
        ∀ i, dp'.getD i ⊤ ≤ dp.getD i ⊤ := by
  intro ps
  induction ps with
  | nil => exact fun dp hl _ => ⟨dp, rfl, hl, fun i => le_refl _⟩
  | cons q rest ih =>
    intro dp hl hle
    have hq : q ≤ max_power := hle q (List.mem_cons_self q rest)
    have hrest : ∀ q' ∈ rest, q' ≤ max_power := fun q' hq' => hle q' (List.mem_cons_of_mem q hq')
    rw [dp_outer]
    by_cases hguard : dp.getD q ⊤ = ⊤
    · rw [if_pos hguard]
      exact ih dp hl hrest
    · rw [if_neg hguard]
      obtain ⟨dp₁, h₁, hl₁, hle₁⟩ := dp_inner_spec max_power q trs dp hl hr
      rw [h₁]
      obtain ⟨dp', h', hl', hle'⟩ := ih dp₁ hl₁ hrest
      exact ⟨dp', h', hl', fun i => le_trans (hle' i) (hle₁ i)⟩

theorem dp_outer_reaches (max_power : ℕ) (trs : List TransformerType)
    (g : TransformerType) (hg : g ∈ trs)
    (hr : ∀ tr ∈ trs, 0 ≤ pyInt tr.rated_power)
    (hg1 : 1 ≤ pyInt g.rated_power) :
    ∀ (k s : ℕ) (dp : List (WithTop ℚ)) (j : ℕ),
      s + k = max_power + 1 → dp.length = max_power + 1 →
      s ≤ j → j ≤ max_power → dp.getD j ⊤ ≠ ⊤ →
      ∃ dp', dp_outer max_power trs (List.range' s k) dp = some dp' ∧
        dp'.getD max_power ⊤ ≠ ⊤ := by
  intro k
  induction k with
  | zero =>
    intro s dp j hsk _ hsj hjm _
    omega
  | succ k ih =>
    intro s dp j hsk hl hsj hjm hfin
    have hs : s ≤ max_power := by omega
    have hrange : List.range' s (k + 1) = s :: List.range' (s + 1) k := rfl
    rw [hrange, dp_outer]
    by_cases hj : j = s
    · subst hj
      rw [if_neg hfin]
      obtain ⟨dp₁, h₁, hl₁, hle₁, hfin₁⟩ := dp_inner_good max_power j g trs dp hg hl hr hfin
      rw [h₁]
      by_cases hjm' : j = max_power
      · have ht : (min (max_power : ℤ) ((j : ℤ) + pyInt g.rated_power)).toNat = max_power := by
          omega
        rw [ht] at hfin₁
        obtain ⟨dp', h', _, hle'⟩ := dp_outer_spec max_power trs hr (List.range' (j + 1) k) dp₁ hl₁
          (fun q' hq' => by
            have := List.mem_range'_1.mp hq'
            omega)
        refine ⟨dp', ?_, ne_top_of_le_ne_top hfin₁ (hle' max_power)⟩
        exact h'
      · have hjlt : j < max_power := lt_of_le_of_ne hjm hjm'
        have ht1 : j + 1 ≤ (min (max_power : ℤ) ((j : ℤ) + pyInt g.rated_power)).toNat := by
          omega
        have ht2 : (min (max_power : ℤ) ((j : ℤ) + pyInt g.rated_power)).toNat ≤ max_power := by
          omega
        exact ih (j + 1) dp₁ (min (max_power : ℤ) ((j : ℤ) + pyInt g.rated_power)).toNat
          (by omega) hl₁ ht1 ht2 hfin₁
    · have hsj' : s + 1 ≤ j := by omega
      by_cases hguard : dp.getD s ⊤ = ⊤
      · rw [if_pos hguard]
        exact ih (s + 1) dp j (by omega) hl hsj' hjm hfin
      · rw [if_neg hguard]
        obtain ⟨dp₁, h₁, hl₁, hle₁⟩ := dp_inner_spec max_power s trs dp hl hr
        rw [h₁]
        exact ih (s + 1) dp₁ j (by omega) hl₁ hsj' hjm (ne_top_of_le_ne_top hfin (hle₁ j))

theorem select_go_cost (f : ℚ) :
    ∀ (opts : List CableType) (best : CableType × ℤ) (bc : WithTop ℚ),
      (∀ c ∈ opts, c.capacity ≠ 0) →
      ∃ r, select_go f opts best bc =
        .ok (r, (opts.map (bundle_cost_per_meter f)).foldl min bc) := by
  intro opts
  induction opts with
  | nil => exact fun best bc _ => ⟨best, rfl⟩
  | cons c rest ih =>
    intro best bc h
    have hc := h c (List.mem_cons_self c rest)
    have hr : ∀ c' ∈ rest, c'.capacity ≠ 0 := fun c' hc' => h c' (List.mem_cons_of_mem c hc')
    rw [select_go, if_neg hc]
    dsimp only
    rw [List.map_cons, List.foldl_cons]
    by_cases hlt : ((⌈f / c.capacity⌉ : ℚ) : WithTop ℚ) * c.cost_per_meter < bc
    · rw [if_pos hlt]
      have hm : min bc (bundle_cost_per_meter f c) = bundle_cost_per_meter f c :=
        min_eq_right (le_of_lt hlt)
      rw [hm, bundle_cost_per_meter]
      exact ih _ _ hr
    · rw [if_neg hlt]
      have hm : min bc (bundle_cost_per_meter f c) = bc :=
        min_eq_left (not_lt.mp hlt)
      rw [hm]
      exact ih _ _ hr

theorem foldl_min_mono {α : Type} [LinearOrder α] :
    ∀ {l1 l2 : List α}, List.Forall₂ (· ≤ ·) l1 l2 → ∀ {b1 b2 : α}, b1 ≤ b2 →
      l1.foldl min b1 ≤ l2.foldl min b2 := by
  intro l1 l2 h
  induction h with
  | nil => exact fun hb => hb
  | cons hx _ ih => exact fun hb => ih (min_le_min hb hx)

theorem bundle_cost_mono {f1 f2 : ℚ} (hf : f1 ≤ f2) {c : CableType}
    (hcap : 0 < c.capacity) {q : ℚ} (hq : c.cost_per_meter = (q : WithTop ℚ))
    (hq0 : 0 ≤ q) :
    bundle_cost_per_meter f1 c ≤ bundle_cost_per_meter f2 c := by
  rw [bundle_cost_per_meter, bundle_cost_per_meter, hq, ← WithTop.coe_mul,
    ← WithTop.coe_mul, WithTop.coe_le_coe]
  have hdiv : f1 / c.capacity ≤ f2 / c.capacity := by
    exact (div_le_div_iff_of_pos_right hcap).mpr hf
  have hceil : (⌈f1 / c.capacity⌉ : ℚ) ≤ (⌈f2 / c.capacity⌉ : ℚ) := by
    exact_mod_cast Int.ceil_mono hdiv
  exact mul_le_mul_of_nonneg_right hceil hq0

theorem forall₂_map_le (f1 f2 : ℚ) :
    ∀ (opts : List CableType),
      (∀ c ∈ opts, bundle_cost_per_meter f1 c ≤ bundle_cost_per_meter f2 c) →
      List.Forall₂ (· ≤ ·) (opts.map (bundle_cost_per_meter f1))
        (opts.map (bundle_cost_per_meter f2)) := by
  intro opts
  induction opts with
  | nil => exact fun _ => List.Forall₂.nil
  | cons c rest ih =>
    intro h
    exact List.Forall₂.cons (h c (List.mem_cons_self c rest))
      (ih (fun c' h' => h c' (List.mem_cons_of_mem c h')))

theorem alookup_none_iff {κ β : Type} [DecidableEq κ] :
    ∀ (l : List (κ × β)) (k : κ), alookup l k = none ↔ k ∉ l.map Prod.fst := by
  intro l
  induction l with
  | nil => intro k; simp [alookup]
  | cons p rest ih =>
    intro k
    rw [alookup]
    by_cases h : p.1 = k
    · simp [h]
    · simp [h, ih, Ne.symm h]

theorem alookup_some_key {κ β : Type} [DecidableEq κ] {l : List (κ × β)} {k : κ}
    {v : β} (h : alookup l k = some v) : k ∈ l.map Prod.fst := by
  by_contra hk
  rw [(alookup_none_iff l k).mpr hk] at h
  exact Option.noConfusion h

theorem aset_keys_of_mem {κ β : Type} [DecidableEq κ] :
    ∀ (l : List (κ × β)) (k : κ) (v : β), k ∈ l.map Prod.fst →
      (aset l k v).map Prod.fst = l.map Prod.fst := by
  intro l
  induction l with
  | nil => intro k v h; simp at h
  | cons p rest ih =>
    intro k v h
    rw [aset]
    by_cases hp : p.1 = k
    · simp [hp]
    · rw [if_neg hp, List.map_cons, List.map_cons, ih k v ?_]
      rcases List.mem_cons.mp h with h0 | h1
      · exact absurd h0.symm hp
      · exact h1

theorem rankIn_lt_length : ∀ (L : List ℤ) (a : ℤ), a ∈ L → rankIn L a < L.length := by
  intro L
  induction L with
  | nil => intro a h; simp at h
  | cons b rest ih =>
    intro a h
    rw [rankIn]
    by_cases hb : b = a
    · rw [if_pos hb]; simp
    · rw [if_neg hb, List.length_cons]
      have : a ∈ rest := by
        rcases List.mem_cons.mp h with h0 | h1
        · exact absurd h0.symm hb
        · exact h1
      exact Nat.succ_lt_succ (ih a this)

theorem rankIn_append_left : ∀ (L M : List ℤ) (a : ℤ), a ∈ L →
    rankIn (L ++ M) a = rankIn L a := by
  intro L
  induction L with
  | nil => intro M a h; simp at h
  | cons b rest ih =>
    intro M a h
    rw [List.cons_append, rankIn, rankIn]
    by_cases hb : b = a
    · rw [if_pos hb, if_pos hb]
    · have : a ∈ rest := by
        rcases List.mem_cons.mp h with h0 | h1
        · exact absurd h0.symm hb
        · exact h1
      rw [if_neg hb, if_neg hb, ih M a this]

theorem rankIn_append_fresh : ∀ (L : List ℤ) (a : ℤ), a ∉ L →
    rankIn (L ++ [a]) a = L.length := by
  intro L
  induction L with
  | nil => intro a _; simp [rankIn]
  | cons b rest ih =>
    intro a h
    have hb : b ≠ a := fun e => h (e ▸ List.mem_cons_self b rest)
    have hr : a ∉ rest := fun e => h (List.mem_cons_of_mem b e)
    rw [List.cons_append, rankIn, if_neg hb, ih a hr, List.length_cons]

theorem treeKeyPairs_cons (p : ℤ × List (Node × Edge)) (t : TreeMap) :
    treeKeyPairs (p :: t) = p.2.map (fun ce => (p.1, ce)) ++ treeKeyPairs t := rfl

theorem treeKeyPairs_append : ∀ (t1 t2 : TreeMap),
    treeKeyPairs (t1 ++ t2) = treeKeyPairs t1 ++ treeKeyPairs t2 := by
  intro t1 t2
  induction t1 with
  | nil => rfl
  | cons p rest ih =>
    rw [List.cons_append, treeKeyPairs_cons, treeKeyPairs_cons, ih, List.append_assoc]

theorem alookup_keyPairs : ∀ (tree : TreeMap) (k : ℤ) (ch : List (Node × Edge)),
    alookup tree k = some ch → ∀ ce ∈ ch, (k, ce) ∈ treeKeyPairs tree := by
  intro tree
  induction tree with
  | nil => intro k ch h; exact absurd h (by rw [alookup]; exact Option.noConfusion)
  | cons p rest ih =>
    intro k ch h ce hce
    rw [treeKeyPairs_cons]
    rw [alookup] at h
    by_cases hp : p.1 = k
    · rw [if_pos hp] at h
      have : p.2 = ch := Option.some.inj h
      subst this
      exact List.mem_append_left _ (by
        subst hp
        exact List.mem_map_of_mem (fun ce => (p.1, ce)) hce)
    · rw [if_neg hp] at h
      exact List.mem_append_right _ (ih k ch h ce hce)

theorem aset_keyPairs_perm : ∀ (tree : TreeMap) (k : ℤ)
    (entries : List (Node × Edge)) (ce : Node × Edge),
    alookup tree k = some entries →
    (treeKeyPairs (aset tree k (entries ++ [ce]))).Perm
      (treeKeyPairs tree ++ [(k, ce)]) := by
  intro tree
  induction tree with
  | nil => intro k entries ce h; exact absurd h (by rw [alookup]; exact Option.noConfusion)
  | cons p rest ih =>
    intro k entries ce h
    rw [alookup] at h
    rw [aset]
    by_cases hp : p.1 = k
    · rw [if_pos hp] at h
      rw [if_pos hp]
      have hent : p.2 = entries := Option.some.inj h
      subst hent
      rw [treeKeyPairs_cons, treeKeyPairs_cons]
      subst hp
      rw [List.map_append, List.append_assoc, List.append_assoc]
      refine List.Perm.append_left _ ?_
      simp only [List.map_cons, List.map_nil]
      exact @List.perm_append_comm _ [(p.1, ce)] (treeKeyPairs rest)
    · rw [if_neg hp] at h
      rw [if_neg hp, treeKeyPairs_cons, treeKeyPairs_cons, List.append_assoc]
      exact List.Perm.append_left _ (ih k entries ce h)

theorem treeAdd_keyPairs_perm (tree : TreeMap) (p c : Node) :
    (treeKeyPairs (treeAdd tree p c)).Perm
      (treeKeyPairs tree ++ [(p.node_id, (c, mkEdge p c))]) := by
  rw [treeAdd]
  cases h : alookup tree p.node_id with
  | none =>
    rw [treeKeyPairs_append]
    exact List.Perm.refl _
  | some entries =>
    exact aset_keyPairs_perm tree p.node_id entries (c, mkEdge p c) h

theorem scanInner_prop {nodes : List Node} {in_mst : List ℤ} {node : Node}
    (hn : node ∈ nodes) (hid : node.node_id ∈ in_mst)
    {st : WithTop ℚ × Option (Node × Node)} (hst : ScanProp nodes in_mst st)
    {other : Node} (ho : other ∈ nodes) :
    ScanProp nodes in_mst (scanInner in_mst node st other) := by
  rw [scanInner]
  by_cases h1 : other.node_id ∉ in_mst
  · rw [if_pos h1]
    by_cases h2 : ((get_dist_sq node other : ℚ) : WithTop ℚ) < st.1
    · rw [if_pos h2]
      exact ⟨fun h => Option.noConfusion h,
        fun pc hpc => by
          cases Option.some.inj hpc
          exact ⟨hn, hid, ho, h1⟩⟩
    · rw [if_neg h2]; exact hst
  · rw [if_neg h1]; exact hst

theorem scanInner_fold_prop {nodes : List Node} {in_mst : List ℤ} {node : Node}
    (hn : node ∈ nodes) (hid : node.node_id ∈ in_mst) :
    ∀ (l : List Node), (∀ x ∈ l, x ∈ nodes) →
      ∀ {st : WithTop ℚ × Option (Node × Node)}, ScanProp nodes in_mst st →
      ScanProp nodes in_mst (l.foldl (scanInner in_mst node) st) := by
  intro l
  induction l with
  | nil => intro _ st hst; exact hst
  | cons x rest ih =>
    intro hsub st hst
    rw [List.foldl_cons]
    exact ih (fun y hy => hsub y (List.mem_cons_of_mem x hy))
      (scanInner_prop hn hid hst (hsub x (List.mem_cons_self x rest)))

theorem scanInner_isSome {in_mst : List ℤ} {node : Node}
    {st : WithTop ℚ × Option (Node × Node)} (h : st.2.isSome = true)
    (other : Node) : (scanInner in_mst node st other).2.isSome = true := by
  rw [scanInner]
  by_cases h1 : other.node_id ∉ in_mst
  · rw [if_pos h1]
    by_cases h2 : ((get_dist_sq node other : ℚ) : WithTop ℚ) < st.1
    · rw [if_pos h2]; rfl
    · rw [if_neg h2]; exact h
  · rw [if_neg h1]; exact h

theorem scanInner_fold_isSome {in_mst : List ℤ} {node : Node} :
    ∀ (l : List Node) {st : WithTop ℚ × Option (Node × Node)},
      st.2.isSome = true → (l.foldl (scanInner in_mst node) st).2.isSome = true := by
  intro l
  induction l with
  | nil => exact fun h => h
  | cons x rest ih =>
    intro st h
    rw [List.foldl_cons]
    exact ih (scanInner_isSome h x)

theorem scanInner_noneTop {in_mst : List ℤ} {node : Node} :
    ∀ (l : List Node) {st : WithTop ℚ × Option (Node × Node)},
      (st.2 = none → st.1 = ⊤) →
      ((l.foldl (scanInner in_mst node) st).2 = none →
        (l.foldl (scanInner in_mst node) st).1 = ⊤) := by
  intro l
  induction l with
  | nil => exact fun h => h
  | cons x rest ih =>
    intro st h
    rw [List.foldl_cons]
    refine ih ?_
    rw [scanInner]
    by_cases h1 : x.node_id ∉ in_mst
    · rw [if_pos h1]
      by_cases h2 : ((get_dist_sq node x : ℚ) : WithTop ℚ) < st.1
      · rw [if_pos h2]; exact fun hc => Option.noConfusion hc
      · rw [if_neg h2]; exact h
    · rw [if_neg h1]; exact h

theorem scanInner_fold_some {in_mst : List ℤ} {node : Node} :
    ∀ (l : List Node) {st : WithTop ℚ × Option (Node × Node)} {b : Node},
      b ∈ l → b.node_id ∉ in_mst → (st.2 = none → st.1 = ⊤) →
      (l.foldl (scanInner in_mst node) st).2.isSome = true := by
  intro l
  induction l with
  | nil => intro st b hb; simp at hb
  | cons x rest ih =>
    intro st b hb hbo hnt
    rw [List.foldl_cons]
    rcases List.mem_cons.mp hb with rfl | hb'
    · cases hsome : st.2 with
      | some pc =>
        exact scanInner_fold_isSome rest (by
          exact scanInner_isSome (by rw [hsome]; rfl) b)
      | none =>
        have htop : st.1 = ⊤ := hnt hsome
        have : (scanInner in_mst node st b).2.isSome = true := by
          rw [scanInner, if_pos hbo, htop,
            if_pos (WithTop.coe_lt_top (get_dist_sq node b))]
          rfl
        exact scanInner_fold_isSome rest this
    · refine ih hb' hbo ?_
      rw [scanInner]
      by_cases h1 : x.node_id ∉ in_mst
      · rw [if_pos h1]
        by_cases h2 : ((get_dist_sq node x : ℚ) : WithTop ℚ) < st.1
        · rw [if_pos h2]; exact fun hc => Option.noConfusion hc
        · rw [if_neg h2]; exact hnt
      · rw [if_neg h1]; exact hnt

theorem scanOuter_prop {nodes : List Node} {in_mst : List ℤ}
    {st : WithTop ℚ × Option (Node × Node)} (hst : ScanProp nodes in_mst st)
    {node : Node} (hn : node ∈ nodes) :
    ScanProp nodes in_mst (scanOuter nodes in_mst st node) := by
  rw [scanOuter]
  by_cases h : node.node_id ∈ in_mst
  · rw [if_pos h]
    exact scanInner_fold_prop hn h nodes (fun x hx => hx) hst
  · rw [if_neg h]; exact hst

theorem scanOuter_fold_prop {nodes : List Node} {in_mst : List ℤ} :
    ∀ (l : List Node), (∀ x ∈ l, x ∈ nodes) →
      ∀ {st : WithTop ℚ × Option (Node × Node)}, ScanProp nodes in_mst st →
      ScanProp nodes in_mst (l.foldl (scanOuter nodes in_mst) st) := by
  intro l
  induction l with
  | nil => exact fun _ _ hst => hst
  | cons x rest ih =>
    intro hsub st hst
    rw [List.foldl_cons]
    exact ih (fun y hy => hsub y (List.mem_cons_of_mem x hy))
      (scanOuter_prop hst (hsub x (List.mem_cons_self x rest)))

theorem scanOuter_isSome {nodes : List Node} {in_mst : List ℤ}
    {st : WithTop ℚ × Option (Node × Node)} (h : st.2.isSome = true)
    (node : Node) : (scanOuter nodes in_mst st node).2.isSome = true := by
  rw [scanOuter]
  by_cases h1 : node.node_id ∈ in_mst
  · rw [if_pos h1]; exact scanInner_fold_isSome nodes h
  · rw [if_neg h1]; exact h

theorem scanOuter_fold_isSome {nodes : List Node} {in_mst : List ℤ} :
    ∀ (l : List Node) {st : WithTop ℚ × Option (Node × Node)},
      st.2.isSome = true → (l.foldl (scanOuter nodes in_mst) st).2.isSome = true := by
  intro l
  induction l with
  | nil => exact fun h => h
  | cons x rest ih =>
    intro st h
    rw [List.foldl_cons]
    exact ih (scanOuter_isSome h x)

theorem scanPairs_some {nodes : List Node} {in_mst : List ℤ} {p b : Node}
    (hp : p ∈ nodes) (hpid : p.node_id ∈ in_mst)
    (hb : b ∈ nodes) (hbid : b.node_id ∉ in_mst) :
    ∃ pc : Node × Node, (scanPairs nodes in_mst).2 = some pc ∧
      pc.1 ∈ nodes ∧ pc.1.node_id ∈ in_mst ∧ pc.2 ∈ nodes ∧ pc.2.node_id ∉ in_mst := by
  have hprop : ScanProp nodes in_mst (scanPairs nodes in_mst) := by
    rw [scanPairs]
    exact scanOuter_fold_prop nodes (fun x hx => hx)
      ⟨fun _ => rfl, fun pc hpc => Option.noConfusion hpc⟩
  have hsome : (scanPairs nodes in_mst).2.isSome = true := by
    obtain ⟨l1, l2, hdec⟩ := List.append_of_mem hp
    have hnt : ScanProp nodes in_mst (l1.foldl (scanOuter nodes in_mst) (⊤, none)) :=
      scanOuter_fold_prop l1 (fun x hx => hdec ▸ List.mem_append_left _ hx)
        ⟨fun _ => rfl, fun pc hpc => Option.noConfusion hpc⟩
    have hstep : (scanOuter nodes in_mst
        (l1.foldl (scanOuter nodes in_mst) (⊤, none)) p).2.isSome = true := by
      rw [scanOuter, if_pos hpid]
      exact scanInner_fold_some nodes hb hbid hnt.1
    rw [scanPairs]
    set f := scanOuter nodes in_mst with hf
    rw [hdec, List.foldl_append, List.foldl_cons]
    exact scanOuter_fold_isSome l2 hstep
  obtain ⟨pc, hpc⟩ := Option.isSome_iff_exists.mp hsome
  exact ⟨pc, hpc, hprop.2 pc hpc⟩

theorem contains_of_mem {α : Type} [DecidableEq α] {l : List α} {a : α}
    (h : a ∈ l) : l.contains a = true :=
  List.elem_iff.mpr h

theorem mem_of_contains {α : Type} [DecidableEq α] {l : List α} {a : α}
    (h : l.contains a = true) : a ∈ l :=
  List.elem_iff.mp h

theorem connectedToRootB_append : ∀ (edges : List Edge) (r : List ℤ) (e : Edge),
    connectedToRootB edges r = true →
    (r ++ edges.map (fun e => e.node2.node_id)).contains e.node1.node_id = true →
    connectedToRootB (edges ++ [e]) r = true := by
  intro edges
  induction edges with
  | nil =>
    intro r e _ hc
    simp only [List.map_nil, List.append_nil] at hc
    rw [List.nil_append, connectedToRootB, hc, connectedToRootB]
    rfl
  | cons e0 rest ih =>
    intro r e h hc
    rw [connectedToRootB, Bool.and_eq_true] at h
    rw [List.cons_append, connectedToRootB, h.1, Bool.true_and]
    refine ih (r ++ [e0.node2.node_id]) e h.2 ?_
    rw [List.append_assoc]
    rw [List.map_cons] at hc
    exact hc

theorem treeAdd_keys (tree : TreeMap) (p c : Node) :
    (treeAdd tree p c).map Prod.fst = tree.map Prod.fst ∨
    ((treeAdd tree p c).map Prod.fst = tree.map Prod.fst ++ [p.node_id] ∧
      p.node_id ∉ tree.map Prod.fst) := by
  rw [treeAdd]
  cases h : alookup tree p.node_id with
  | none =>
    right
    rw [List.map_append]
    exact ⟨rfl, (alookup_none_iff tree p.node_id).mp h⟩
  | some entries =>
    left
    exact aset_keys_of_mem tree p.node_id _ (alookup_some_key h)

theorem treeInv_extend {nodes : List Node} {tree : TreeMap} {L : List ℤ}
    (hinv : TreeInv nodes tree L) {p c : Node}
    (hpn : p ∈ nodes) (hcn : c ∈ nodes)
    (hpL : p.node_id ∈ L) (hcL : c.node_id ∉ L) :
    TreeInv nodes (treeAdd tree p c) (L ++ [c.node_id]) := by
  have hperm := treeAdd_keyPairs_perm tree p c
  have hmem : ∀ kce ∈ treeKeyPairs (treeAdd tree p c),
      kce ∈ treeKeyPairs tree ∨ kce = (p.node_id, (c, mkEdge p c)) := by
    intro kce hk
    rcases List.mem_append.mp (hperm.mem_iff.mp hk) with h1 | h2
    · exact Or.inl h1
    · exact Or.inr (List.mem_singleton.mp h2)
  have hLnodup : (L ++ [c.node_id]).Nodup := by
    rw [List.nodup_append]
    exact ⟨hinv.nodupL, List.nodup_singleton _,
      fun a ha hb => hcL ((List.mem_singleton.mp hb) ▸ ha)⟩
  refine ⟨hLnodup, ?_, ?_, ?_, ?_, ?_, ?_⟩
  · rcases treeAdd_keys tree p c with hk | ⟨hk, hnotin⟩
    · rw [hk]; exact hinv.keys_nodup
    · rw [hk, List.nodup_append]
      exact ⟨hinv.keys_nodup, List.nodup_singleton _,
        fun a ha hb => hnotin ((List.mem_singleton.mp hb) ▸ ha)⟩
  · intro k hk
    rcases treeAdd_keys tree p c with hkeys | ⟨hkeys, _⟩
    · rw [hkeys] at hk
      exact List.mem_append_left _ (hinv.keys_mem k hk)
    · rw [hkeys] at hk
      rcases List.mem_append.mp hk with h1 | h2
      · exact List.mem_append_left _ (hinv.keys_mem k h1)
      · exact List.mem_append_left _ ((List.mem_singleton.mp h2) ▸ hpL)
  · intro kce hk
    rcases hmem kce hk with h1 | h2
    · exact hinv.entry_shape kce h1
    · subst h2
      exact ⟨rfl, rfl, hcn, hpn⟩
  · intro kce hk
    rcases hmem kce hk with h1 | h2
    · exact List.mem_append_left _ (hinv.child_mem kce h1)
    · subst h2
      exact List.mem_append_right _ (List.mem_singleton.mpr rfl)
  · intro kce hk
    rcases hmem kce hk with h1 | h2
    · exact List.mem_append_left _ (hinv.key_mem_pair kce h1)
    · subst h2
      exact List.mem_append_left _ hpL
  · intro kce hk
    rcases hmem kce hk with h1 | h2
    · rw [rankIn_append_left L [c.node_id] _ (hinv.key_mem_pair kce h1),
        rankIn_append_left L [c.node_id] _ (hinv.child_mem kce h1)]
      exact hinv.rank_lt kce h1
    · subst h2
      rw [rankIn_append_left L [c.node_id] _ hpL, rankIn_append_fresh L _ hcL]
      exact rankIn_lt_length L _ hpL

theorem primInv_step {nodes : List Node} {root : Node} {in_mst : List ℤ}
    {edges : List Edge} {tree : TreeMap}
    (hinv : PrimInv nodes root in_mst edges tree) {p c : Node}
    (hpn : p ∈ nodes) (hpid : p.node_id ∈ in_mst)
    (hcn : c ∈ nodes) (hcid : c.node_id ∉ in_mst) :
    PrimInv nodes root (in_mst ++ [c.node_id]) (edges ++ [mkEdge p c])
      (treeAdd tree p c) := by
  refine ⟨?_, ?_, ?_, hinv.root_mem, ?_, ?_, ?_, ?_⟩
  · rw [hinv.inm_eq, List.map_append]
    rfl
  · rw [List.nodup_append]
    exact ⟨hinv.inm_nodup, List.nodup_singleton _,
      fun a ha hb => hcid ((List.mem_singleton.mp hb) ▸ ha)⟩
  · intro i hi
    rcases List.mem_append.mp hi with h1 | h2
    · exact hinv.inm_sub i h1
    · rw [List.mem_singleton.mp h2]
      exact List.mem_map_of_mem (fun n => n.node_id) hcn
  · intro e he
    rcases List.mem_append.mp he with h1 | h2
    · exact hinv.edge_nodes e h1
    · rw [List.mem_singleton.mp h2]
      exact ⟨hpn, hcn⟩
  · refine connectedToRootB_append edges [root.node_id] (mkEdge p c) hinv.conn ?_
    have : ([root.node_id] ++ edges.map (fun e => e.node2.node_id)) = in_mst := by
      rw [hinv.inm_eq]
      rfl
    rw [this]
    exact contains_of_mem hpid
  · exact treeInv_extend hinv.tinv hpn hcn hpid hcid
  · refine (treeAdd_keyPairs_perm tree p c).trans ?_
    rw [List.map_append]
    exact List.Perm.append hinv.pairs_perm (List.Perm.refl _)

theorem primLoop_spec {nodes : List Node} {root : Node}
    (hids : (nodes.map (fun n => n.node_id)).Nodup) :
    ∀ (fuel : ℕ) (in_mst : List ℤ) (edges : List Edge) (tree : TreeMap),
      PrimInv nodes root in_mst edges tree →
      nodes.length ≤ in_mst.length + fuel →
      ∃ in_mst' edges' tree',
        primLoop nodes fuel in_mst edges tree = .ok (edges', tree') ∧
        PrimInv nodes root in_mst' edges' tree' ∧
        in_mst'.length = nodes.length := by
  intro fuel
  induction fuel with
  | zero =>
    intro in_mst edges tree hinv hle
    rw [primLoop]
    have hnlt : ¬ (in_mst.length < nodes.length) := by omega
    rw [if_neg hnlt]
    refine ⟨in_mst, edges, tree, rfl, hinv, ?_⟩
    have hsub : in_mst ⊆ nodes.map (fun n => n.node_id) := fun i hi => hinv.inm_sub i hi
    have := (List.Nodup.subperm hinv.inm_nodup hsub).length_le
    rw [List.length_map] at this
    omega
  | succ fuel ih =>
    intro in_mst edges tree hinv hle
    rw [primLoop]
    by_cases hlt : in_mst.length < nodes.length
    · rw [if_pos hlt]
      have hout : ∃ b ∈ nodes, b.node_id ∉ in_mst := by
        by_contra hno
        push_neg at hno
        have hsub : (nodes.map (fun n => n.node_id)) ⊆ in_mst := by
          intro i hi
          obtain ⟨n, hn, rfl⟩ := List.mem_map.mp hi
          exact hno n hn
        have := (List.Nodup.subperm hids hsub).length_le
        rw [List.length_map] at this
        omega
      obtain ⟨b, hbn, hbid⟩ := hout
      have hrootid : root.node_id ∈ in_mst := by
        rw [hinv.inm_eq]
        exact List.mem_cons_self _ _
      obtain ⟨pc, hpc, hp1, hp2, hp3, hp4⟩ :=
        scanPairs_some hinv.root_mem hrootid hbn hbid
      rw [hpc]
      refine ih _ _ _ (primInv_step hinv hp1 hp2 hp3 hp4) ?_
      rw [List.length_append, List.length_singleton]
      omega
    · rw [if_neg hlt]
      refine ⟨in_mst, edges, tree, rfl, hinv, ?_⟩
      have hsub : in_mst ⊆ nodes.map (fun n => n.node_id) := fun i hi => hinv.inm_sub i hi
      have := (List.Nodup.subperm hinv.inm_nodup hsub).length_le
      rw [List.length_map] at this
      omega

theorem build_rooted_mst_spec {root : Node} {rest : List Node}
    (hids : ((root :: rest).map (fun n => n.node_id)).Nodup) :
    ∃ edges tree in_mst',
      build_rooted_mst (root :: rest) = .ok (edges, tree) ∧
      PrimInv (root :: rest) root in_mst' edges tree ∧
      in_mst'.length = (root :: rest).length := by
  cases rest with
  | nil =>
    refine ⟨[], [], [root.node_id], rfl, ?_, rfl⟩
    refine ⟨rfl, List.nodup_singleton _, ?_, List.mem_cons_self root [], ?_, rfl, ?_, ?_⟩
    · intro i hi
      rw [List.mem_singleton.mp hi]
      exact List.mem_map_of_mem (fun n => n.node_id) (List.mem_cons_self root [])
    · intro e he
      exact absurd he (List.not_mem_nil e)
    · exact ⟨List.nodup_singleton _, List.nodup_nil, (fun k hk => absurd hk (List.not_mem_nil k)),
        (fun kce hk => absurd hk (List.not_mem_nil kce)),
        (fun kce hk => absurd hk (List.not_mem_nil kce)),
        (fun kce hk => absurd hk (List.not_mem_nil kce)),
        (fun kce hk => absurd hk (List.not_mem_nil kce))⟩
    · exact List.Perm.refl []
  | cons r rs =>
    have hinv0 : PrimInv (root :: r :: rs) root [root.node_id] [] [(root.node_id, [])] := by
      refine ⟨rfl, List.nodup_singleton _, ?_, List.mem_cons_self _ _, ?_, rfl, ?_, ?_⟩
      · intro i hi
        rw [List.mem_singleton.mp hi]
        exact List.mem_map_of_mem (fun (n : Node) => n.node_id) (List.mem_cons_self _ _)
      · intro e he
        exact absurd he (List.not_mem_nil e)
      · refine ⟨List.nodup_singleton _, ?_, ?_, ?_, ?_, ?_, ?_⟩
        · exact List.nodup_singleton _
        · intro k hk
          simpa using hk
        · intro kce hk
          exact absurd hk (by rw [treeKeyPairs_cons]; simp [treeKeyPairs])
        · intro kce hk
          exact absurd hk (by rw [treeKeyPairs_cons]; simp [treeKeyPairs])
        · intro kce hk
          exact absurd hk (by rw [treeKeyPairs_cons]; simp [treeKeyPairs])
        · intro kce hk
          exact absurd hk (by rw [treeKeyPairs_cons]; simp [treeKeyPairs])
      · rw [treeKeyPairs_cons]
        simp [treeKeyPairs]
    obtain ⟨in_mst', edges', tree', hloop, hinv', hlen'⟩ :=
      primLoop_spec hids (root :: r :: rs).length [root.node_id] [] [(root.node_id, [])]
        hinv0 (by rw [List.length_singleton]; omega)
    exact ⟨edges', tree', in_mst', hloop, hinv', hlen'⟩

theorem primInv_covers {nodes : List Node} {root : Node} {in_mst : List ℤ}
    {edges : List Edge} {tree : TreeMap}
    (hinv : PrimInv nodes root in_mst edges tree)
    (hlen : in_mst.length = nodes.length) :
    ∀ n ∈ nodes, n.node_id ∈ in_mst := by
  have hsub : in_mst ⊆ nodes.map (fun n => n.node_id) := fun i hi => hinv.inm_sub i hi
  have hperm : in_mst.Perm (nodes.map (fun n => n.node_id)) :=
    (List.Nodup.subperm hinv.inm_nodup hsub).perm_of_length_le
      (by rw [List.length_map]; omega)
  intro n hn
  exact hperm.mem_iff.mpr (List.mem_map_of_mem (fun n => n.node_id) hn)

theorem primInv_spanning {nodes : List Node} {root : Node} {in_mst : List ℤ}
    {edges : List Edge} {tree : TreeMap}
    (hinv : PrimInv nodes root in_mst edges tree)
    (hlen : in_mst.length = nodes.length) :
    spanningB nodes root edges = true := by
  have hreached : root.node_id :: edges.map (fun e => e.node2.node_id) = in_mst :=
    hinv.inm_eq.symm
  have h1 : edges.length + 1 = nodes.length := by
    have := congrArg List.length hinv.inm_eq
    rw [List.length_cons, List.length_map] at this
    omega
  have h2 : (root.node_id :: edges.map (fun e => e.node2.node_id)).Nodup := by
    rw [hreached]
    exact hinv.inm_nodup
  have h4 : ∀ n ∈ nodes,
      (root.node_id :: edges.map (fun e => e.node2.node_id)).contains n.node_id = true := by
    intro n hn
    rw [hreached]
    exact contains_of_mem (primInv_covers hinv hlen n hn)
  have h5 : ∀ e ∈ edges, (nodes.contains e.node1 && nodes.contains e.node2) = true := by
    intro e he
    rw [Bool.and_eq_true]
    exact ⟨contains_of_mem (hinv.edge_nodes e he).1,
      contains_of_mem (hinv.edge_nodes e he).2⟩
  rw [spanningB, Bool.and_eq_true, Bool.and_eq_true, Bool.and_eq_true, Bool.and_eq_true]
  exact ⟨⟨⟨⟨decide_eq_true h1, decide_eq_true h2⟩, hinv.conn⟩,
    List.all_eq_true.mpr h4⟩, List.all_eq_true.mpr h5⟩

theorem dfs_some {nodes : List Node} {tree : TreeMap} {L : List ℤ}
    (hinv : TreeInv nodes tree L) (power : ℚ) :
    ∀ (fuel : ℕ) (v : Node) (flows : List ((ℤ × ℤ) × ℚ)),
      v.node_id ∈ L → L.length - rankIn L v.node_id ≤ fuel →
      ∃ res, dfs tree power fuel v flows = some res := by
  intro fuel
  induction fuel with
  | zero =>
    intro v flows hv hf
    have := rankIn_lt_length L v.node_id hv
    omega
  | succ fuel ih =>
    intro v flows hv hf
    rw [dfs]
    cases halo : alookup tree v.node_id with
    | none => exact ⟨_, rfl⟩
    | some children =>
      have hkp : ∀ ce ∈ children, (v.node_id, ce) ∈ treeKeyPairs tree :=
        alookup_keyPairs tree v.node_id children halo
      have hkids : ∀ (ch : List (Node × Edge)),
          (∀ ce ∈ ch, (v.node_id, ce) ∈ treeKeyPairs tree) →
          ∀ acc, ∃ res,
            dfsKids (fun child fl => dfs tree power fuel child fl) ch acc = some res := by
        intro ch
        induction ch with
        | nil => exact fun _ acc => ⟨acc, rfl⟩
        | cons ce rest ihk =>
          intro hch acc
          have hpair := hch ce (List.mem_cons_self ce rest)
          have hcL : ce.1.node_id ∈ L := hinv.child_mem _ hpair
          have hrank : rankIn L v.node_id < rankIn L ce.1.node_id := hinv.rank_lt _ hpair
          obtain ⟨r1, hr1⟩ := ih ce.1 acc.1 hcL (by omega)
          rw [dfsKids, hr1]
          exact ihk (fun ce' h' => hch ce' (List.mem_cons_of_mem ce h')) _
      obtain ⟨res, hres⟩ := hkids children hkp
        (flows, if v.kind = NodeKind.turbine then power else 0)
      exact ⟨res, hres⟩

theorem assign_cables_shape (opts : List CableType) (flows : List ((ℤ × ℤ) × ℚ))
    (hopts : ∀ c ∈ opts, c.capacity ≠ 0) :
    ∀ edges : List Edge, ∃ edges', assign_cables opts flows edges = .ok edges' ∧
      List.Forall₂ (fun e e' : Edge => e'.node1 = e.node1 ∧ e'.node2 = e.node2)
        edges edges' := by
  intro edges
  induction edges with
  | nil => exact ⟨[], rfl, List.Forall₂.nil⟩
  | cons e rest ih =>
    obtain ⟨edges', hrest, hfa⟩ := ih
    rw [assign_cables]
    cases halo : alookup flows (e.node1.node_id, e.node2.node_id) with
    | none =>
      refine ⟨e :: edges', ?_, List.Forall₂.cons ⟨rfl, rfl⟩ hfa⟩
      rw [hrest]
      rfl
    | some fl =>
      obtain ⟨r, hr⟩ := select_go_ok fl opts (dummyCable, 0) ⊤ hopts
      refine ⟨{ e with flow := fl, cable_type := some r.1.1, num_cables := r.1.2 } :: edges',
        ?_, List.Forall₂.cons ⟨rfl, rfl⟩ hfa⟩
      simp only [select_cable_bundle, select_cable_bundle_full]
      rw [hr]
      show (assign_cables opts flows rest).map _ = _
      rw [hrest]
      rfl

theorem forall₂_map_node2 {edges edges' : List Edge}
    (h : List.Forall₂ (fun e e' : Edge => e'.node1 = e.node1 ∧ e'.node2 = e.node2)
      edges edges') :
    edges'.map (fun e => e.node2.node_id) = edges.map (fun e => e.node2.node_id) := by
  induction h with
  | nil => rfl
  | cons hx _ ih => simp only [List.map_cons, hx.2, ih]

theorem connectedToRootB_congr {edges edges' : List Edge}
    (h : List.Forall₂ (fun e e' : Edge => e'.node1 = e.node1 ∧ e'.node2 = e.node2)
      edges edges') :
    ∀ r, connectedToRootB edges' r = connectedToRootB edges r := by
  induction h with
  | nil => exact fun _ => rfl
  | cons hx _ ih =>
    intro r
    rw [connectedToRootB, connectedToRootB, hx.1, hx.2, ih]

theorem spanningB_congr {nodes : List Node} {root : Node} {edges edges' : List Edge}
    (h : List.Forall₂ (fun e e' : Edge => e'.node1 = e.node1 ∧ e'.node2 = e.node2)
      edges edges') :
    spanningB nodes root edges' = spanningB nodes root edges := by
  have hall : edges'.all (fun e => nodes.contains e.node1 && nodes.contains e.node2) =
      edges.all (fun e => nodes.contains e.node1 && nodes.contains e.node2) := by
    induction h with
    | nil => rfl
    | cons hx _ ih =>
      rw [List.all_cons, List.all_cons, hx.1, hx.2, ih]
  rw [spanningB, spanningB, forall₂_map_node2 h, h.length_eq, connectedToRootB_congr h, hall]

theorem aset_alookup_self {κ β : Type} [DecidableEq κ] :
    ∀ (l : List (κ × β)) (k : κ) (v : β), alookup (aset l k v) k = some v := by
  intro l
  induction l with
  | nil => intro k v; rw [aset, alookup, if_pos rfl]
  | cons p rest ih =>
    intro k v
    rw [aset]
    by_cases hp : p.1 = k
    · rw [if_pos hp, alookup, if_pos rfl]
    · rw [if_neg hp, alookup, if_neg hp]
      exact ih k v

theorem aset_alookup_ne {κ β : Type} [DecidableEq κ] :
    ∀ (l : List (κ × β)) (k k' : κ) (v : β), k ≠ k' →
      alookup (aset l k v) k' = alookup l k' := by
  intro l
  induction l with
  | nil =>
    intro k k' v hne
    simp [aset, alookup, hne]
  | cons p rest ih =>
    intro k k' v hne
    rw [aset]
    by_cases hp : p.1 = k
    · rw [if_pos hp, alookup, alookup, if_neg (hp ▸ hne), hp]
      rw [if_neg hne]
    · rw [if_neg hp, alookup, alookup]
      by_cases hp' : p.1 = k'
      · rw [if_pos hp', if_pos hp']
      · rw [if_neg hp', if_neg hp']
        exact ih k k' v hne

theorem alookup_decomp {κ β : Type} [DecidableEq κ] :
    ∀ (l : List (κ × β)) (k : κ) (v : β), alookup l k = some v →
      ∃ t1 t2, l = t1 ++ (k, v) :: t2 := by
  intro l
  induction l with
  | nil => intro k v h; exact absurd h (by rw [alookup]; exact Option.noConfusion)
  | cons p rest ih =>
    intro k v h
    rw [alookup] at h
    by_cases hp : p.1 = k
    · rw [if_pos hp] at h
      refine ⟨[], rest, ?_⟩
      have : p = (k, v) := by
        obtain ⟨p1, p2⟩ := p
        simp only at hp
        cases hp
        cases Option.some.inj h
        rfl
      rw [this]
      rfl
    · rw [if_neg hp] at h
      obtain ⟨t1, t2, ht⟩ := ih k v h
      exact ⟨p :: t1, t2, by rw [ht]; rfl⟩

theorem keyPairs_alookup {tree : TreeMap}
    (hkeys : (tree.map Prod.fst).Nodup) :
    ∀ {k : ℤ} {ce : Node × Edge}, (k, ce) ∈ treeKeyPairs tree →
      ∃ ch, alookup tree k = some ch ∧ ce ∈ ch := by
  induction tree with
  | nil => intro k ce h; exact absurd h (List.not_mem_nil _)
  | cons p rest ih =>
    intro k ce h
    rw [treeKeyPairs_cons] at h
    rw [List.map_cons, List.nodup_cons] at hkeys
    rcases List.mem_append.mp h with h1 | h2
    · obtain ⟨ce', hce', heq⟩ := List.mem_map.mp h1
      have hk : p.1 = k := congrArg Prod.fst heq
      have hce : ce = ce' := by
        have := congrArg Prod.snd heq
        exact this.symm
      refine ⟨p.2, ?_, hce ▸ hce'⟩
      rw [alookup, if_pos hk]
    · obtain ⟨ch, hch, hmem⟩ := ih hkeys.2 h2
      have hk : p.1 ≠ k := by
        intro he
        exact hkeys.1 (he ▸ (by
          have := alookup_some_key hch
          exact this))
      refine ⟨ch, ?_, hmem⟩
      rw [alookup, if_neg hk]
      exact hch

theorem reachesB_refl (tree : TreeMap) : ∀ (f : ℕ) (a : ℤ),
    reachesB tree f a a = true := by
  intro f a
  cases f with
  | zero => rw [reachesB]; exact beq_self_eq_true a
  | succ f => rw [reachesB, beq_self_eq_true, Bool.true_or]

theorem reachesB_succ_of {tree : TreeMap} :
    ∀ {f : ℕ} {a b : ℤ}, reachesB tree f a b = true →
      reachesB tree (f + 1) a b = true := by
  intro f
  induction f with
  | zero =>
    intro a b h
    rw [reachesB] at h
    rw [reachesB, h, Bool.true_or]
  | succ f ih =>
    intro a b h
    rw [reachesB] at h
    rw [reachesB]
    rcases Bool.or_eq_true_iff.mp h with h1 | h2
    · rw [h1, Bool.true_or]
    · obtain ⟨ce, hce, hr⟩ := List.any_eq_true.mp h2
      refine Eq.trans (congrArg _ ?_) (Bool.or_true _)
      exact List.any_eq_true.mpr ⟨ce, hce, ih hr⟩

theorem reachesB_mono {tree : TreeMap} {f f' : ℕ} (hle : f ≤ f') {a b : ℤ}
    (h : reachesB tree f a b = true) : reachesB tree f' a b = true := by
  induction hle with
  | refl => exact h
  | step _ ih => exact reachesB_succ_of ih

theorem reach_step_front {tree : TreeMap}
    (hkeys : (tree.map Prod.fst).Nodup) {a : ℤ} {ce : Node × Edge}
    (hpair : (a, ce) ∈ treeKeyPairs tree) {b : ℤ}
    (h : Reaches tree ce.1.node_id b) : Reaches tree a b := by
  obtain ⟨f, hf⟩ := h
  obtain ⟨ch, hch, hmem⟩ := keyPairs_alookup hkeys hpair
  refine ⟨f + 1, ?_⟩
  rw [reachesB, hch]
  refine Eq.trans (congrArg _ ?_) (Bool.or_true _)
  exact List.any_eq_true.mpr ⟨ce, hmem, hf⟩

theorem reach_refl (tree : TreeMap) (a : ℤ) : Reaches tree a a :=
  ⟨0, reachesB_refl tree 0 a⟩

theorem pair_of_child_mem {tree : TreeMap} {a : ℤ} {ce : Node × Edge}
    (hce : ce ∈ (alookup tree a).getD []) : (a, ce) ∈ treeKeyPairs tree := by
  cases halo : alookup tree a with
  | none => rw [halo] at hce; exact absurd hce (List.not_mem_nil ce)
  | some ch =>
    rw [halo] at hce
    exact alookup_keyPairs tree a ch halo ce hce

theorem reach_dest {tree : TreeMap} (hkeys : (tree.map Prod.fst).Nodup) :
    ∀ (f : ℕ) (a b : ℤ), reachesB tree f a b = true → a ≠ b →
      ∃ kce ∈ treeKeyPairs tree, kce.2.1.node_id = b ∧ Reaches tree a kce.1 := by
  intro f
  induction f with
  | zero =>
    intro a b h hne
    rw [reachesB] at h
    exact absurd (beq_iff_eq.mp h) hne
  | succ f ih =>
    intro a b h hne
    rw [reachesB] at h
    rcases Bool.or_eq_true_iff.mp h with h1 | h2
    · exact absurd (beq_iff_eq.mp h1) hne
    · obtain ⟨ce, hce, hr⟩ := List.any_eq_true.mp h2
      have hpair : (a, ce) ∈ treeKeyPairs tree := pair_of_child_mem hce
      by_cases hcb : ce.1.node_id = b
      · exact ⟨(a, ce), hpair, hcb, reach_refl tree a⟩
      · obtain ⟨kce, hkce, hkb, hra⟩ := ih ce.1.node_id b hr hcb
        exact ⟨kce, hkce, hkb, reach_step_front hkeys hpair hra⟩

theorem reach_rank {nodes : List Node} {tree : TreeMap} {L : List ℤ}
    (hinv : TreeInv nodes tree L) :
    ∀ (f : ℕ) (a b : ℤ), reachesB tree f a b = true →
      a = b ∨ (rankIn L a < rankIn L b ∧ b ∈ L) := by
  intro f
  induction f with
  | zero =>
    intro a b h
    rw [reachesB] at h
    exact Or.inl (beq_iff_eq.mp h)
  | succ f ih =>
    intro a b h
    rw [reachesB] at h
    rcases Bool.or_eq_true_iff.mp h with h1 | h2
    · exact Or.inl (beq_iff_eq.mp h1)
    · obtain ⟨ce, hce, hr⟩ := List.any_eq_true.mp h2
      have hpair : (a, ce) ∈ treeKeyPairs tree := pair_of_child_mem hce
      have hrank : rankIn L a < rankIn L ce.1.node_id := hinv.rank_lt _ hpair
      have hceL : ce.1.node_id ∈ L := hinv.child_mem _ hpair
      rcases ih ce.1.node_id b hr with heq | ⟨h3, h4⟩
      · exact Or.inr ⟨heq ▸ hrank, heq ▸ hceL⟩
      · exact Or.inr ⟨lt_trans hrank h3, h4⟩

theorem reach_sat {nodes : List Node} {tree : TreeMap} {L : List ℤ}
    (hinv : TreeInv nodes tree L) :
    ∀ (f : ℕ) (a b : ℤ), reachesB tree f a b = true → a ∈ L →
      reachesB tree (L.length - rankIn L a) a b = true := by
  intro f
  induction f with
  | zero =>
    intro a b h _
    rw [reachesB] at h
    rw [beq_iff_eq.mp h]
    exact reachesB_refl tree _ b
  | succ f ih =>
    intro a b h haL
    rw [reachesB] at h
    rcases Bool.or_eq_true_iff.mp h with h1 | h2
    · rw [beq_iff_eq.mp h1]
      exact reachesB_refl tree _ b
    · obtain ⟨ce, hce, hr⟩ := List.any_eq_true.mp h2
      have hpair : (a, ce) ∈ treeKeyPairs tree := pair_of_child_mem hce
      have hcL : ce.1.node_id ∈ L := hinv.child_mem _ hpair
      have hrank : rankIn L a < rankIn L ce.1.node_id := hinv.rank_lt _ hpair
      have hc := ih ce.1.node_id b hr hcL
      have haLlt := rankIn_lt_length L a haL
      have hcLlt := rankIn_lt_length L ce.1.node_id hcL
      have hfuel : reachesB tree (L.length - rankIn L a - 1) ce.1.node_id b = true :=
        reachesB_mono (by omega) hc
      have heq : L.length - rankIn L a = (L.length - rankIn L a - 1) + 1 := by omega
      rw [heq, reachesB]
      refine Eq.trans (congrArg _ ?_) (Bool.or_true _)
      exact List.any_eq_true.mpr ⟨ce, hce, hfuel⟩

theorem reach_at_fuel {nodes : List Node} {tree : TreeMap} {L : List ℤ}
    (hinv : TreeInv nodes tree L) {F : ℕ} (hF : L.length ≤ F) {a b : ℤ}
    (h : Reaches tree a b) (haL : a ∈ L) : reachesB tree F a b = true := by
  obtain ⟨f, hf⟩ := h
  exact reachesB_mono (by omega) (reach_sat hinv f a b hf haL)

theorem reach_unfold {nodes : List Node} {tree : TreeMap} {L : List ℤ}
    (hinv : TreeInv nodes tree L) {F : ℕ} (hF : L.length ≤ F) (a b : ℤ) :
    reachesB tree F a b = true ↔
      (a = b ∨ ∃ ce ∈ (alookup tree a).getD [],
        reachesB tree F ce.1.node_id b = true) := by
  constructor
  · intro h
    cases F with
    | zero =>
      rw [reachesB] at h
      exact Or.inl (beq_iff_eq.mp h)
    | succ F =>
      rw [reachesB] at h
      rcases Bool.or_eq_true_iff.mp h with h1 | h2
      · exact Or.inl (beq_iff_eq.mp h1)
      · obtain ⟨ce, hce, hr⟩ := List.any_eq_true.mp h2
        exact Or.inr ⟨ce, hce, reachesB_mono (Nat.le_succ F) hr⟩
  · intro h
    rcases h with rfl | ⟨ce, hce, hr⟩
    · exact reachesB_refl tree F a
    · have hpair : (a, ce) ∈ treeKeyPairs tree := pair_of_child_mem hce
      have hcL : ce.1.node_id ∈ L := hinv.child_mem _ hpair
      have hrank : rankIn L a < rankIn L ce.1.node_id := hinv.rank_lt _ hpair
      have hcLlt := rankIn_lt_length L ce.1.node_id hcL
      have hsat := reach_sat hinv F ce.1.node_id b hr hcL
      have hF1 : 1 ≤ F := by omega
      have hfuel : reachesB tree (F - 1) ce.1.node_id b = true :=
        reachesB_mono (by omega) hsat
      have heq : F = (F - 1) + 1 := by omega
      rw [heq, reachesB]
      refine Eq.trans (congrArg _ ?_) (Bool.or_true _)
      exact List.any_eq_true.mpr ⟨ce, hce, hfuel⟩

theorem unique_parent {tree : TreeMap}
    (hco : ((treeKeyPairs tree).map (fun kce => kce.2.1.node_id)).Nodup)
    {p q : ℤ × (Node × Edge)} (hp : p ∈ treeKeyPairs tree)
    (hq : q ∈ treeKeyPairs tree)
    (heq : p.2.1.node_id = q.2.1.node_id) : p = q :=
  List.inj_on_of_nodup_map hco hp hq heq

theorem reach_meet {nodes : List Node} {tree : TreeMap} {L : List ℤ}
    (hinv : TreeInv nodes tree L)
    (hco : ((treeKeyPairs tree).map (fun kce => kce.2.1.node_id)).Nodup) :
    ∀ (r : ℕ) (x c1 c2 : ℤ), rankIn L x = r →
      Reaches tree c1 x → Reaches tree c2 x →
      Reaches tree c1 c2 ∨ Reaches tree c2 c1 := by
  intro r
  induction r using Nat.strong_induction_on with
  | _ r ih =>
    intro x c1 c2 hrx h1 h2
    by_cases he1 : c1 = x
    · exact Or.inr (he1 ▸ h2)
    by_cases he2 : c2 = x
    · exact Or.inl (he2 ▸ h1)
    obtain ⟨f1, hf1⟩ := h1
    obtain ⟨f2, hf2⟩ := h2
    obtain ⟨kce1, hk1, hb1, hr1⟩ := reach_dest hinv.keys_nodup f1 c1 x hf1 he1
    obtain ⟨kce2, hk2, hb2, hr2⟩ := reach_dest hinv.keys_nodup f2 c2 x hf2 he2
    have hkk : kce1 = kce2 := unique_parent hco hk1 hk2 (by rw [hb1, hb2])
    subst hkk
    have hrank : rankIn L kce1.1 < rankIn L x := hb1 ▸ hinv.rank_lt _ hk1
    exact ih (rankIn L kce1.1) (by omega) kce1.1 c1 c2 rfl hr1 hr2

theorem reach_of_child_not_parent {nodes : List Node} {tree : TreeMap} {L : List ℤ}
    (hinv : TreeInv nodes tree L)
    {v : ℤ} {ce : Node × Edge} (hpair : (v, ce) ∈ treeKeyPairs tree) :
    ¬ Reaches tree ce.1.node_id v := by
  intro hr
  obtain ⟨f, hf⟩ := hr
  have hrank : rankIn L v < rankIn L ce.1.node_id := hinv.rank_lt _ hpair
  rcases reach_rank hinv f ce.1.node_id v hf with heq | ⟨hlt, _⟩
  · rw [heq] at hrank
    exact lt_irrefl _ hrank
  · omega

theorem reach_sibling_disjoint {nodes : List Node} {tree : TreeMap} {L : List ℤ}
    (hinv : TreeInv nodes tree L)
    (hco : ((treeKeyPairs tree).map (fun kce => kce.2.1.node_id)).Nodup)
    {v : ℤ} {ce1 ce2 : Node × Edge}
    (h1 : (v, ce1) ∈ treeKeyPairs tree) (h2 : (v, ce2) ∈ treeKeyPairs tree)
    (hne : ce1.1.node_id ≠ ce2.1.node_id) :
    ∀ x, Reaches tree ce1.1.node_id x → Reaches tree ce2.1.node_id x → False := by
  have key : ∀ (ca cb : Node × Edge), (v, ca) ∈ treeKeyPairs tree →
      (v, cb) ∈ treeKeyPairs tree → ca.1.node_id ≠ cb.1.node_id →
      ¬ Reaches tree ca.1.node_id cb.1.node_id := by
    intro ca cb ha hb hnab hr
    obtain ⟨f, hf⟩ := hr
    obtain ⟨kce, hk, hbk, hrk⟩ := reach_dest hinv.keys_nodup f _ _ hf hnab
    have : kce = (v, cb) := unique_parent hco hk hb (by rw [hbk])
    subst this
    have hrankb : rankIn L v < rankIn L ca.1.node_id := hinv.rank_lt _ ha
    obtain ⟨f', hf'⟩ := hrk
    rcases reach_rank hinv f' ca.1.node_id v hf' with heq | ⟨hlt, _⟩
    · rw [heq] at hrankb
      exact lt_irrefl _ hrankb
    · omega
  intro x hx1 hx2
  rcases reach_meet hinv hco (rankIn L x) x ce1.1.node_id ce2.1.node_id rfl hx1 hx2 with hm | hm
  · exact key ce1 ce2 h1 h2 hne hm
  · exact key ce2 ce1 h2 h1 (Ne.symm hne) hm

theorem countP_or_disjoint {α : Type} (p q : α → Bool) :
    ∀ (l : List α), (∀ x ∈ l, ¬(p x = true ∧ q x = true)) →
      l.countP (fun x => p x || q x) = l.countP p + l.countP q := by
  intro l
  induction l with
  | nil => intro _; rfl
  | cons a rest ih =>
    intro h
    rw [List.countP_cons, List.countP_cons, List.countP_cons,
      ih (fun x hx => h x (List.mem_cons_of_mem a hx))]
    have ha := h a (List.mem_cons_self a rest)
    cases hpa : p a <;> cases hqa : q a <;> simp [hpa, hqa] at ha ⊢ <;> omega

theorem countP_unique {α : Type} [DecidableEq α] (p : α → Bool) :
    ∀ (l : List α) (v : α), l.Nodup → v ∈ l →
      l.countP (fun n => p n && (n == v)) = if p v then 1 else 0 := by
  intro l
  induction l with
  | nil => intro v _ hv; exact absurd hv (List.not_mem_nil v)
  | cons a rest ih =>
    intro v hnd hv
    rw [List.nodup_cons] at hnd
    rw [List.countP_cons]
    rcases List.mem_cons.mp hv with rfl | hv'
    · have hz : rest.countP (fun n => p n && (n == v)) = 0 := by
        rw [List.countP_eq_zero]
        intro x hx
        have : x ≠ v := fun he => hnd.1 (he ▸ hx)
        simp [this]
      rw [hz]
      simp
    · have ha : a ≠ v := fun he => hnd.1 (he ▸ hv')
      have : (p a && (a == v)) = false := by
        simp [ha]
      rw [this, ih v hnd.2 hv']
      simp

theorem children_ids_nodup {tree : TreeMap}
    (hco : ((treeKeyPairs tree).map (fun kce => kce.2.1.node_id)).Nodup)
    {v : ℤ} {ch : List (Node × Edge)} (halo : alookup tree v = some ch) :
    (ch.map (fun ce => ce.1.node_id)).Nodup := by
  obtain ⟨t1, t2, ht⟩ := alookup_decomp tree v ch halo
  have hsub : (ch.map (fun ce => (v, ce))).Sublist (treeKeyPairs tree) := by
    rw [ht, treeKeyPairs_append, treeKeyPairs_cons]
    exact List.Sublist.trans (List.sublist_append_left _ _)
      (List.sublist_append_right _ _)
  have := hco.sublist (hsub.map (fun kce => kce.2.1.node_id))
  rw [List.map_map] at this
  exact this

theorem edgeKey_eq {nodes : List Node} {tree : TreeMap} {L : List ℤ}
    (hinv : TreeInv nodes tree L) {kce : ℤ × (Node × Edge)}
    (hk : kce ∈ treeKeyPairs tree) :
    edgeKey kce = (kce.1, kce.2.1.node_id) := by
  obtain ⟨_, h2, _, _⟩ := hinv.entry_shape kce hk
  rw [edgeKey, h2]
  have h5 : kce.2.2.node2 = kce.2.1 := by
    have h1 := (hinv.entry_shape kce hk).1
    exact congrArg Edge.node2 h1
  rw [h5]

theorem countP_children_split {nodes : List Node} {tree : TreeMap} {L : List ℤ}
    (hinv : TreeInv nodes tree L)
    (hco : ((treeKeyPairs tree).map (fun kce => kce.2.1.node_id)).Nodup)
    {F : ℕ} {v : ℤ} :
    ∀ (cs : List (Node × Edge)), (∀ ce ∈ cs, (v, ce) ∈ treeKeyPairs tree) →
      (cs.map (fun ce => ce.1.node_id)).Nodup →
      nodes.countP (fun n => (n.kind == NodeKind.turbine) &&
        cs.any (fun ce => reachesB tree F ce.1.node_id n.node_id)) =
      (cs.map (fun ce => nodes.countP (fun n => (n.kind == NodeKind.turbine) &&
        reachesB tree F ce.1.node_id n.node_id))).sum := by
  intro cs
  induction cs with
  | nil =>
    intro _ _
    rw [List.map_nil, List.sum_nil, List.countP_eq_zero]
    intro x _
    simp
  | cons ce rest ih =>
    intro hpairs hnd
    rw [List.map_cons, List.nodup_cons] at hnd
    have hsplit : nodes.countP (fun n => (n.kind == NodeKind.turbine) &&
        (ce :: rest).any (fun ce' => reachesB tree F ce'.1.node_id n.node_id)) =
        nodes.countP (fun n => ((n.kind == NodeKind.turbine) &&
            reachesB tree F ce.1.node_id n.node_id) ||
          ((n.kind == NodeKind.turbine) &&
            rest.any (fun ce' => reachesB tree F ce'.1.node_id n.node_id))) := by
      refine List.countP_congr ?_
      intro n _
      rw [List.any_cons, Bool.and_or_distrib_left]
    rw [hsplit, countP_or_disjoint _ _ nodes ?disj, List.map_cons, List.sum_cons,
      ih (fun ce' h' => hpairs ce' (List.mem_cons_of_mem ce h')) hnd.2]
    case disj =>
      intro n _ ⟨h1, h2⟩
      rw [Bool.and_eq_true] at h1 h2
      obtain ⟨ce', hce', hr'⟩ := List.any_eq_true.mp h2.2
      have hne : ce.1.node_id ≠ ce'.1.node_id := by
        intro he
        exact hnd.1 (he ▸ List.mem_map_of_mem (fun ce => ce.1.node_id) hce')
      exact reach_sibling_disjoint hinv hco
        (hpairs ce (List.mem_cons_self ce rest))
        (hpairs ce' (List.mem_cons_of_mem ce hce')) hne n.node_id
        ⟨F, h1.2⟩ ⟨F, hr'⟩

theorem cnt_unfold {nodes : List Node} {tree : TreeMap} {L : List ℤ}
    (hinv : TreeInv nodes tree L)
    (hco : ((treeKeyPairs tree).map (fun kce => kce.2.1.node_id)).Nodup)
    (hN : (nodes.map (fun n => n.node_id)).Nodup)
    {F : ℕ} (hF : L.length ≤ F)
    {v : Node} (hv : v ∈ nodes) :
    (subtree_turbines nodes tree F v.node_id).length =
      (if v.kind = NodeKind.turbine then 1 else 0) +
      (((alookup tree v.node_id).getD []).map (fun ce =>
        (subtree_turbines nodes tree F ce.1.node_id).length)).sum := by
  have hstep : ∀ (i : ℤ), (subtree_turbines nodes tree F i).length =
      nodes.countP (fun n => (n.kind == NodeKind.turbine) &&
        reachesB tree F i n.node_id) := by
    intro i
    rw [subtree_turbines, ← List.countP_eq_length_filter]
  rw [hstep]
  have hpt : ∀ n ∈ nodes, ((n.kind == NodeKind.turbine) &&
      reachesB tree F v.node_id n.node_id) =
      (((n.kind == NodeKind.turbine) && (n == v)) ||
        ((n.kind == NodeKind.turbine) &&
          ((alookup tree v.node_id).getD []).any
            (fun ce => reachesB tree F ce.1.node_id n.node_id))) := by
    intro n hn
    have hreach : reachesB tree F v.node_id n.node_id =
        ((n == v) || ((alookup tree v.node_id).getD []).any
          (fun ce => reachesB tree F ce.1.node_id n.node_id)) := by
      cases hvL : decide (v.node_id ∈ L) with
      | true =>
        have hvL' : v.node_id ∈ L := of_decide_eq_true hvL
        rw [Bool.eq_iff_iff, reach_unfold hinv hF v.node_id n.node_id,
          Bool.or_eq_true_iff]
        constructor
        · intro h
          rcases h with heq | ⟨ce, hce, hr⟩
          · left
            have : n = v := List.inj_on_of_nodup_map hN hn hv heq.symm
            simp [this]
          · right
            exact List.any_eq_true.mpr ⟨ce, hce, hr⟩
        · intro h
          rcases h with heq | hany
          · left
            have : n = v := by
              have := beq_iff_eq.mp heq
              exact this
            rw [this]
          · right
            obtain ⟨ce, hce, hr⟩ := List.any_eq_true.mp hany
            exact ⟨ce, hce, hr⟩
      | false =>
        have hvL' : v.node_id ∉ L := of_decide_eq_false hvL
        have halo : alookup tree v.node_id = none := by
          rw [alookup_none_iff]
          intro hk
          exact hvL' (hinv.keys_mem _ hk)
        rw [halo]
        have hrB : reachesB tree F v.node_id n.node_id = (v.node_id == n.node_id) := by
          cases F with
          | zero =>
            rw [reachesB]
          | succ F =>
            rw [reachesB, halo]
            simp
        rw [hrB]
        simp only [Option.getD_none, List.any_nil, Bool.or_false]
        rw [Bool.eq_iff_iff, beq_iff_eq, beq_iff_eq]
        constructor
        · intro h
          exact (List.inj_on_of_nodup_map hN hn hv h.symm).symm ▸ rfl
        · intro h
          rw [h]
    rw [hreach, Bool.and_or_distrib_left]
  rw [List.countP_congr (fun n hn => by rw [hpt n hn]),
    countP_or_disjoint _ _ nodes ?disj]
  case disj =>
    intro n hn ⟨h1, h2⟩
    rw [Bool.and_eq_true] at h1 h2
    obtain ⟨ce, hce, hr⟩ := List.any_eq_true.mp h2.2
    have hpair : (v.node_id, ce) ∈ treeKeyPairs tree := pair_of_child_mem hce
    have hnv : n = v := beq_iff_eq.mp h1.2
    exact reach_of_child_not_parent hinv hpair ⟨F, hnv ▸ hr⟩
  have hone : nodes.countP (fun n => (n.kind == NodeKind.turbine) && (n == v)) =
      if v.kind = NodeKind.turbine then 1 else 0 := by
    have hnodes : nodes.Nodup := hN.of_map _
    rw [countP_unique _ nodes v hnodes hv]
    by_cases hk : v.kind = NodeKind.turbine
    · simp [hk]
    · simp [hk]
  rw [hone, countP_children_split hinv hco _
    (fun ce hce => pair_of_child_mem hce) ?ndup]
  case ndup =>
    cases halo : alookup tree v.node_id with
    | none => simp
    | some ch => exact children_ids_nodup hco halo
  exact congrArg (fun s => (if v.kind = NodeKind.turbine then 1 else 0) + s)
    (congrArg List.sum
      (List.map_congr_left (fun (ce : Node × Edge) _ => (hstep ce.1.node_id).symm)))

theorem dfs_spec {nodes : List Node} {tree : TreeMap} {L : List ℤ}
    (hinv : TreeInv nodes tree L)
    (hco : ((treeKeyPairs tree).map (fun kce => kce.2.1.node_id)).Nodup)
    (hN : (nodes.map (fun n => n.node_id)).Nodup)
    (power : ℚ) {F : ℕ} (hF : L.length ≤ F) :
    ∀ (fuel : ℕ) (v : Node) (flows : List ((ℤ × ℤ) × ℚ)),
      v ∈ nodes → v.node_id ∈ L → L.length - rankIn L v.node_id ≤ fuel →
      ∃ flows',
        dfs tree power fuel v flows = some (flows',
          ((subtree_turbines nodes tree F v.node_id).length : ℚ) * power) ∧
        (∀ key : ℤ × ℤ, (∀ kce ∈ treeKeyPairs tree,
            Reaches tree v.node_id kce.1 → key ≠ edgeKey kce) →
          alookup flows' key = alookup flows key) ∧
        (∀ kce ∈ treeKeyPairs tree, Reaches tree v.node_id kce.1 →
          alookup flows' (edgeKey kce) =
            some (((subtree_turbines nodes tree F kce.2.1.node_id).length : ℚ) * power)) := by
  intro fuel
  induction fuel with
  | zero =>
    intro v flows hvn hvL hfuel
    have := rankIn_lt_length L v.node_id hvL
    omega
  | succ fuel ih =>
    intro v flows hvn hvL hfuel
    rw [dfs]
    cases halo : alookup tree v.node_id with
    | none =>
      have hcnt := cnt_unfold hinv hco hN hF hvn
      rw [halo] at hcnt
      simp only [Option.getD_none, List.map_nil, List.sum_nil, Nat.add_zero] at hcnt
      have hbase : (if v.kind = NodeKind.turbine then power else 0) =
          ((subtree_turbines nodes tree F v.node_id).length : ℚ) * power := by
        rw [hcnt]
        by_cases hk : v.kind = NodeKind.turbine
        · simp [hk]
        · simp [hk]
      refine ⟨flows, by rw [hbase], fun key _ => rfl, ?_⟩
      intro kce hk hr
      exfalso
      by_cases he : v.node_id = kce.1
      · obtain ⟨ch, hch, _⟩ :=
          keyPairs_alookup hinv.keys_nodup (show (kce.1, kce.2) ∈ _ from hk)
        rw [← he, halo] at hch
        exact Option.noConfusion hch
      · obtain ⟨f, hf⟩ := hr
        cases f with
        | zero =>
          rw [reachesB] at hf
          exact he (beq_iff_eq.mp hf)
        | succ f =>
          rw [reachesB, halo] at hf
          rcases Bool.or_eq_true_iff.mp hf with h1 | h2
          · exact he (beq_iff_eq.mp h1)
          · rw [Option.getD_none, List.any_nil] at h2
            exact Bool.noConfusion h2
    | some cs =>
      have hpairs_cs : ∀ ce ∈ cs, (v.node_id, ce) ∈ treeKeyPairs tree :=
        alookup_keyPairs tree _ cs halo
      have hnd_cs : (cs.map (fun ce => ce.1.node_id)).Nodup :=
        children_ids_nodup hco halo
      have inner : ∀ (cs' : List (Node × Edge)),
          (∀ ce ∈ cs', (v.node_id, ce) ∈ treeKeyPairs tree) →
          ((cs'.map (fun ce => ce.1.node_id)).Nodup) →
          ∀ acc : List ((ℤ × ℤ) × ℚ) × ℚ,
          ∃ flows',
            dfsKids (fun child fl => dfs tree power fuel child fl) cs' acc =
              some (flows', acc.2 + (cs'.map (fun ce =>
                ((subtree_turbines nodes tree F ce.1.node_id).length : ℚ) * power)).sum) ∧
            (∀ key : ℤ × ℤ, (∀ kce ∈ treeKeyPairs tree,
                CoveredBy tree v.node_id cs' kce → key ≠ edgeKey kce) →
              alookup flows' key = alookup acc.1 key) ∧
            (∀ kce ∈ treeKeyPairs tree, CoveredBy tree v.node_id cs' kce →
              alookup flows' (edgeKey kce) =
                some (((subtree_turbines nodes tree F kce.2.1.node_id).length : ℚ) * power)) := by
        intro cs'
        induction cs' with
        | nil =>
          intro _ _ acc
          refine ⟨acc.1, by rw [dfsKids]; simp, fun key _ => rfl, ?_⟩
          intro kce _ hcov
          rcases hcov with ⟨ce, hce, _⟩ | ⟨ce, hce, _⟩ <;>
            exact absurd hce (List.not_mem_nil ce)
        | cons ce rest ihk =>
          intro hps hnd acc
          rw [List.map_cons, List.nodup_cons] at hnd
          have hpa : (v.node_id, ce) ∈ treeKeyPairs tree :=
            hps ce (List.mem_cons_self ce rest)
          have hcen : ce.1 ∈ nodes := (hinv.entry_shape _ hpa).2.2.1
          have hceL : ce.1.node_id ∈ L := hinv.child_mem _ hpa
          have hrankc : rankIn L v.node_id < rankIn L ce.1.node_id := hinv.rank_lt _ hpa
          obtain ⟨flows₁, hd₁, hpres₁, hlook₁⟩ := ih ce.1 acc.1 hcen hceL (by omega)
          have hkey0 : (ce.2.node1.node_id, ce.2.node2.node_id) =
              edgeKey (v.node_id, ce) := rfl
          obtain ⟨flows₃, hd₃, hpres₃, hlook₃⟩ := ihk
            (fun ce' h' => hps ce' (List.mem_cons_of_mem ce h')) hnd.2
            (aset flows₁ (ce.2.node1.node_id, ce.2.node2.node_id)
                (((subtree_turbines nodes tree F ce.1.node_id).length : ℚ) * power),
              acc.2 + ((subtree_turbines nodes tree F ce.1.node_id).length : ℚ) * power)
          have hemb : ∀ kce' ∈ treeKeyPairs tree, CoveredBy tree v.node_id rest kce' →
              CoveredBy tree v.node_id (ce :: rest) kce' := by
            intro kce' _ hcov
            rcases hcov with ⟨ce', hce', he⟩ | ⟨ce', hce', hr⟩
            · exact Or.inl ⟨ce', List.mem_cons_of_mem ce hce', he⟩
            · exact Or.inr ⟨ce', List.mem_cons_of_mem ce hce', hr⟩
          have hne_direct_rest : ∀ kce' ∈ treeKeyPairs tree,
              CoveredBy tree v.node_id rest kce' →
              edgeKey (v.node_id, ce) ≠ edgeKey kce' := by
            intro kce' hk' hcov heq
            have h1 : edgeKey (v.node_id, ce) = (v.node_id, ce.1.node_id) :=
              edgeKey_eq hinv hpa
            have h2 : edgeKey kce' = (kce'.1, kce'.2.1.node_id) := edgeKey_eq hinv hk'
            rw [h1, h2] at heq
            have hid : ce.1.node_id = kce'.2.1.node_id := congrArg Prod.snd heq
            have hkk : (v.node_id, ce) = kce' := unique_parent hco hpa hk' hid
            rcases hcov with ⟨ce'', hce'', he⟩ | ⟨ce'', hce'', hr⟩
            · rw [← hkk] at he
              have : ce = ce'' := congrArg Prod.snd he
              exact hnd.1 (this ▸ List.mem_map_of_mem (fun ce => ce.1.node_id) hce'')
            · rw [← hkk] at hr
              exact reach_of_child_not_parent hinv
                (hps ce'' (List.mem_cons_of_mem ce hce'')) hr
          refine ⟨flows₃, ?_, ?_, ?_⟩
          · rw [dfsKids, hd₁, List.map_cons, List.sum_cons, ← add_assoc]
            exact hd₃
          · intro key hkey
            rw [hpres₃ key (fun kce' hk' hcov => hkey kce' hk' (hemb kce' hk' hcov)),
              aset_alookup_ne _ _ _ _ ?ne0, hpres₁ key ?sub]
            case ne0 =>
              intro he
              exact hkey (v.node_id, ce) hpa (Or.inl ⟨ce, List.mem_cons_self ce rest, rfl⟩)
                (by rw [← he]; rfl)
            case sub =>
              intro kce' hk' hr
              exact hkey kce' hk' (Or.inr ⟨ce, List.mem_cons_self ce rest, hr⟩)
          · intro kce hk hcov
            rcases hcov with ⟨ce', hce', he⟩ | ⟨ce', hce', hr⟩
            · rcases List.mem_cons.mp hce' with hceq | hce''
              · rw [hceq] at he
                subst he
                rw [hpres₃ _ (fun kce' hk' hcov =>
                  hne_direct_rest kce' hk' hcov), ← hkey0, aset_alookup_self]
              · exact hlook₃ kce hk (Or.inl ⟨ce', hce'', he⟩)
            · rcases List.mem_cons.mp hce' with hceq | hce''
              · rw [hceq] at hr
                have hlk₁ := hlook₁ kce hk hr
                have hne0 : (ce.2.node1.node_id, ce.2.node2.node_id) ≠ edgeKey kce := by
                  rw [hkey0]
                  intro heq
                  have h1 : edgeKey (v.node_id, ce) = (v.node_id, ce.1.node_id) :=
                    edgeKey_eq hinv hpa
                  have h2 : edgeKey kce = (kce.1, kce.2.1.node_id) := edgeKey_eq hinv hk
                  rw [h1, h2] at heq
                  have : v.node_id = kce.1 := congrArg Prod.fst heq
                  exact reach_of_child_not_parent hinv hpa (this ▸ hr)
                have hnrest : ∀ kce' ∈ treeKeyPairs tree,
                    CoveredBy tree v.node_id rest kce' →
                    edgeKey kce ≠ edgeKey kce' := by
                  intro kce' hk' hcov heq
                  have h2 : edgeKey kce = (kce.1, kce.2.1.node_id) := edgeKey_eq hinv hk
                  have h3 : edgeKey kce' = (kce'.1, kce'.2.1.node_id) := edgeKey_eq hinv hk'
                  rw [h2, h3] at heq
                  have hid : kce.2.1.node_id = kce'.2.1.node_id := congrArg Prod.snd heq
                  have hkk : kce = kce' := unique_parent hco hk hk' hid
                  subst hkk
                  rcases hcov with ⟨ce'', hce'', he⟩ | ⟨ce'', hce'', hr''⟩
                  · have hk1 : kce.1 = v.node_id := by rw [he]
                    exact reach_of_child_not_parent hinv hpa (hk1 ▸ hr)
                  · have hneid : ce.1.node_id ≠ ce''.1.node_id := by
                      intro he2
                      exact hnd.1 (he2 ▸ List.mem_map_of_mem (fun ce => ce.1.node_id) hce'')
                    exact reach_sibling_disjoint hinv hco hpa
                      (hps ce'' (List.mem_cons_of_mem ce hce'')) hneid kce.1 hr hr''
                rw [hpres₃ _ hnrest, aset_alookup_ne _ _ _ _ hne0, hlk₁]
              · exact hlook₃ kce hk (Or.inr ⟨ce', hce'', hr⟩)
      obtain ⟨flows₃, hd₃, hpres₃, hlook₃⟩ := inner cs hpairs_cs hnd_cs
        (flows, if v.kind = NodeKind.turbine then power else 0)
      have hcnt := cnt_unfold hinv hco hN hF hvn
      rw [halo] at hcnt
      simp only [Option.getD_some] at hcnt
      have htot : (if v.kind = NodeKind.turbine then power else 0) +
          (cs.map (fun ce =>
            ((subtree_turbines nodes tree F ce.1.node_id).length : ℚ) * power)).sum =
          ((subtree_turbines nodes tree F v.node_id).length : ℚ) * power := by
        rw [hcnt]
        push_cast
        rw [add_mul]
        congr 1
        · by_cases hk : v.kind = NodeKind.turbine
          · simp [hk]
          · simp [hk]
        · rw [← List.sum_map_mul_right, List.map_map]
          rfl
      refine ⟨flows₃, hd₃.trans (congrArg (fun q => some (flows₃, q)) htot), ?_, ?_⟩
      · intro key hkey
        refine hpres₃ key ?_
        intro kce hk hcov
        refine hkey kce hk ?_
        rcases hcov with ⟨ce, hce, he⟩ | ⟨ce, hce, hr⟩
        · rw [he]
          exact reach_refl tree v.node_id
        · exact reach_step_front hinv.keys_nodup (hpairs_cs ce hce) hr
      · intro kce hk hr
        refine hlook₃ kce hk ?_
        by_cases he : v.node_id = kce.1
        · obtain ⟨ch, hch, hcem⟩ :=
            keyPairs_alookup hinv.keys_nodup (show (kce.1, kce.2) ∈ _ from hk)
          rw [← he, halo] at hch
          have hcs : ch = cs := (Option.some.inj hch).symm
          subst hcs
          exact Or.inl ⟨kce.2, hcem, by rw [he]⟩
        · obtain ⟨f, hf⟩ := hr
          cases f with
          | zero =>
            rw [reachesB] at hf
            exact absurd (beq_iff_eq.mp hf) he
          | succ f =>
            rw [reachesB, halo] at hf
            rcases Bool.or_eq_true_iff.mp hf with h1 | h2
            · exact absurd (beq_iff_eq.mp h1) he
            · rw [Option.getD_some] at h2
              obtain ⟨ce, hce, hr'⟩ := List.any_eq_true.mp h2
              exact Or.inr ⟨ce, hce, ⟨f, hr'⟩⟩

theorem reach_trans {tree : TreeMap} (hkeys : (tree.map Prod.fst).Nodup) :
    ∀ (f : ℕ) {a b c : ℤ}, reachesB tree f a b = true → Reaches tree b c →
      Reaches tree a c := by
  intro f
  induction f with
  | zero =>
    intro a b c h hbc
    rw [reachesB] at h
    rw [beq_iff_eq.mp h]
    exact hbc
  | succ f ihf =>
    intro a b c h hbc
    rw [reachesB] at h
    rcases Bool.or_eq_true_iff.mp h with h1 | h2
    · rw [beq_iff_eq.mp h1]
      exact hbc
    · obtain ⟨ce, hce, hr⟩ := List.any_eq_true.mp h2
      exact reach_step_front hkeys (pair_of_child_mem hce) (ihf hr hbc)

theorem reach_back {tree : TreeMap} (hkeys : (tree.map Prod.fst).Nodup)
    {kce : ℤ × (Node × Edge)} (hk : kce ∈ treeKeyPairs tree)
    {a : ℤ} (h : Reaches tree a kce.1) : Reaches tree a kce.2.1.node_id := by
  obtain ⟨f, hf⟩ := h
  exact reach_trans hkeys f hf
    (reach_step_front hkeys (show (kce.1, kce.2) ∈ _ from hk)
      (reach_refl tree kce.2.1.node_id))

theorem root_reaches {nodes : List Node} {root : Node} {in_mst : List ℤ}
    {edges : List Edge} {tree : TreeMap}
    (hinv : PrimInv nodes root in_mst edges tree) :
    ∀ k ∈ in_mst, Reaches tree root.node_id k := by
  suffices h : ∀ (r : ℕ) (k : ℤ), k ∈ in_mst → rankIn in_mst k = r →
      Reaches tree root.node_id k by
    intro k hk
    exact h (rankIn in_mst k) k hk rfl
  intro r
  induction r using Nat.strong_induction_on with
  | _ r ih =>
    intro k hk hr
    by_cases hroot : k = root.node_id
    · rw [hroot]
      exact reach_refl tree root.node_id
    · have hk' : k ∈ edges.map (fun e => e.node2.node_id) := by
        rw [hinv.inm_eq] at hk
        rcases List.mem_cons.mp hk with h1 | h2
        · exact absurd h1 hroot
        · exact h2
      obtain ⟨e, he, hek⟩ := List.mem_map.mp hk'
      have hpair : (e.node1.node_id, (e.node2, e)) ∈ treeKeyPairs tree :=
        hinv.pairs_perm.mem_iff.mpr
          (List.mem_map_of_mem (fun e => (e.node1.node_id, (e.node2, e))) he)
      have hkey_mem : e.node1.node_id ∈ in_mst := hinv.tinv.key_mem_pair _ hpair
      have hrank : rankIn in_mst e.node1.node_id < rankIn in_mst e.node2.node_id :=
        hinv.tinv.rank_lt _ hpair
      rw [hek] at hrank
      have hreach_parent : Reaches tree root.node_id e.node1.node_id :=
        ih (rankIn in_mst e.node1.node_id) (by omega) e.node1.node_id hkey_mem rfl
      have hstep := reach_back hinv.tinv.keys_nodup hpair hreach_parent
      rwa [hek] at hstep

theorem keyPairs_filter_key {tree : TreeMap} :
    ∀ (_ : (tree.map Prod.fst).Nodup) (k : ℤ),
    (treeKeyPairs tree).filter (fun kce => kce.1 == k) =
      ((alookup tree k).getD []).map (fun ce => (k, ce)) := by
  induction tree with
  | nil => intro _ k; rfl
  | cons p rest ih =>
    intro hkeys k
    rw [List.map_cons, List.nodup_cons] at hkeys
    rw [treeKeyPairs_cons, List.filter_append, alookup]
    by_cases hpk : p.1 = k
    · rw [if_pos hpk, Option.getD_some]
      have h1 : (p.2.map (fun ce => (p.1, ce))).filter (fun kce => kce.1 == k) =
          p.2.map (fun ce => (p.1, ce)) := by
        refine List.filter_eq_self.mpr ?_
        intro a ha
        obtain ⟨ce, _, rfl⟩ := List.mem_map.mp ha
        exact beq_iff_eq.mpr hpk
      have h2 : (treeKeyPairs rest).filter (fun kce => kce.1 == k) = [] := by
        refine List.filter_eq_nil_iff.mpr ?_
        intro kce hmem hbeq
        have hkk : kce.1 = k := beq_iff_eq.mp hbeq
        obtain ⟨ch, hch, _⟩ :=
          keyPairs_alookup hkeys.2 (show (kce.1, kce.2) ∈ _ from hmem)
        have hmem2 : k ∈ rest.map Prod.fst := hkk ▸ alookup_some_key hch
        rw [← hpk] at hmem2
        exact hkeys.1 hmem2
      rw [h1, h2, List.append_nil, hpk]
    · rw [if_neg hpk]
      have h1 : (p.2.map (fun ce => (p.1, ce))).filter (fun kce => kce.1 == k) = [] := by
        refine List.filter_eq_nil_iff.mpr ?_
        intro a ha hbeq
        obtain ⟨ce, _, rfl⟩ := List.mem_map.mp ha
        exact hpk (beq_iff_eq.mp hbeq)
      rw [h1, List.nil_append]
      exact ih hkeys.2 k

/-! ## Claims settled by direct evaluation -/

/-- C1: the specification says `optimize_ccp_on_ray` returns a CCP instance
at `(t_opt * cx, t_opt * cy)` with the realized transformer usage attached.
The code cannot: `network.CCP.__init__` declares three parameters
`(node_id, x, y)`, while both constructor calls in src/optimizer.py pass four
arguments, so every cost evaluation — and the final materialisation — raises
`TypeError` instead of producing a CCP. -/
theorem ccp_constructor_call_type_error :
    (∀ ccp_x ccp_y : ℚ, callCCPInit (total_system_cost_ccp_args ccp_x ccp_y) = .exn "TypeError") ∧
    (∀ (t_opt cx cy : ℚ) (u : Option Usage),
      callCCPInit (optimize_final_ccp_args t_opt cx cy u) = .exn "TypeError") :=
  ⟨fun _ _ => rfl, fun _ _ _ _ => rfl⟩

/-- C2: the Step-3 assignment loop of `design_collection_network`
(src/network.py lines 186-193), run on an edge whose flow key is missing from
the flow map, raises nothing: it returns the edge unchanged inside the result
list, with `cable_type = None`, and `Edge.get_cost` counts that edge as `0.0`
in the total — the opposite of the fatal consistency error the specification
mandates. -/
theorem assign_cables_silent_skip :
    assign_cables [⟨"mv1", 58, 1110⟩] [] [mkEdge ⟨NodeKind.ccp, 0, 0, 0⟩ ⟨NodeKind.turbine, 1, 3, 0⟩] =
      .ok [mkEdge ⟨NodeKind.ccp, 0, 0, 0⟩ ⟨NodeKind.turbine, 1, 3, 0⟩] ∧
    (mkEdge ⟨NodeKind.ccp, 0, 0, 0⟩ ⟨NodeKind.turbine, 1, 3, 0⟩).cable_type = none ∧
    (∀ len : Node → Node → ℚ,
      Edge.get_cost len (mkEdge ⟨NodeKind.ccp, 0, 0, 0⟩ ⟨NodeKind.turbine, 1, 3, 0⟩) = 0) :=
  ⟨by decide, rfl, fun _ => rfl⟩

/-- C3 counterexample: a catalog entry with negative capacity is not rejected
anywhere: `select_cable_bundle` proceeds through the division and returns the
entry, selected, with a negative bundle count. -/
theorem select_cable_bundle_negative_capacity_accepted :
    select_cable_bundle 10 [⟨"c", -1, 5⟩] = .ok (⟨"c", -1, 5⟩, -10) := by
  with_unfolding_all decide

/-- C4: `update_node_connections` is not idempotent on neighbor lists.  Its
deduplication guard compares a node's own identifier with its neighbors'
identifiers (src/network.py lines 152-159), so a second application over the
same single CCP-turbine edge appends the CCP to the turbine's neighbor list
again, leaving a duplicated entry (the CCP's connected-turbine list, guarded
by membership of the turbine itself, stays duplicate-free). -/
theorem update_node_connections_duplicates_neighbors :
    neighbors_of
      (update_node_connections [mkEdge ⟨NodeKind.ccp, 0, 0, 0⟩ ⟨NodeKind.turbine, 1, 300, 0⟩]
        (update_node_connections [mkEdge ⟨NodeKind.ccp, 0, 0, 0⟩ ⟨NodeKind.turbine, 1, 300, 0⟩]
          ⟨[], []⟩)) 1 =
      [⟨NodeKind.ccp, 0, 0, 0⟩, ⟨NodeKind.ccp, 0, 0, 0⟩] ∧
    ¬ (neighbors_of
      (update_node_connections [mkEdge ⟨NodeKind.ccp, 0, 0, 0⟩ ⟨NodeKind.turbine, 1, 300, 0⟩]
        (update_node_connections [mkEdge ⟨NodeKind.ccp, 0, 0, 0⟩ ⟨NodeKind.turbine, 1, 300, 0⟩]
          ⟨[], []⟩)) 1).Nodup ∧
    (update_node_connections [mkEdge ⟨NodeKind.ccp, 0, 0, 0⟩ ⟨NodeKind.turbine, 1, 300, 0⟩]
        (update_node_connections [mkEdge ⟨NodeKind.ccp, 0, 0, 0⟩ ⟨NodeKind.turbine, 1, 300, 0⟩]
          ⟨[], []⟩)).ccp_connected = [⟨NodeKind.turbine, 1, 300, 0⟩] := by
  refine ⟨by decide, by decide, by decide⟩

/-- C5 counterexample: required power `P = 1` with the non-empty catalog
`[("t", rated 0.5, cost 10)]`: `int(0.5) = 0`, so the DP never advances and
`dp[1]` remains `inf`. -/
theorem transformer_dp_fractional_rating_infinite :
    transformer_dp 1 [⟨"t", 1/2, 10⟩] = some [(0 : WithTop ℚ), ⊤] ∧
    ([(0 : WithTop ℚ), ⊤]).getD 1 ⊤ = ⊤ := by
  with_unfolding_all decide

/-- C6: with required power `3` and the single transformer type
`("a", rated 2, cost 3)`, the DP yields the finite value `dp[3] = 6`, yet the
backward reconstruction raises `RuntimeError` at its very first step (the
only candidate predecessor level is `1`, where `dp[1] = inf`), instead of
terminating at power 0 with a multiset of cost `dp[3]`. -/
theorem reconstruct_fails_on_finite_dp :
    transformer_dp 3 [⟨"a", 2, 3⟩] = some [(0 : WithTop ℚ), ⊤, 3, 6] ∧
    ([(0 : WithTop ℚ), ⊤, 3, 6]).getD 3 ⊤ = ((6 : ℚ) : WithTop ℚ) ∧
    reconstruct [(0 : WithTop ℚ), ⊤, 3, 6] [⟨"a", 2, 3⟩] 4 3 6 [] =
      .exn "RuntimeError: Unable to reconstruct path for best transformer combination" := by
  with_unfolding_all decide

/-- C9 counterexample: for the fixed catalog `[("c", capacity 1, cost −1)]`
— positive capacity — the selected bundle's cost-per-unit-length strictly
decreases when the required flow grows from 0 to 1. -/
theorem select_monotonicity_fails_negative_cost :
    select_cable_bundle_full 0 [⟨"c", 1, ((-1 : ℚ) : WithTop ℚ)⟩] =
      .ok ((⟨"c", 1, ((-1 : ℚ) : WithTop ℚ)⟩, 0), 0) ∧
    select_cable_bundle_full 1 [⟨"c", 1, ((-1 : ℚ) : WithTop ℚ)⟩] =
      .ok ((⟨"c", 1, ((-1 : ℚ) : WithTop ℚ)⟩, 1), ((-1 : ℚ) : WithTop ℚ)) ∧
    ((-1 : ℚ) : WithTop ℚ) < ((0 : ℚ) : WithTop ℚ) := by
  with_unfolding_all decide

/-- C10: on an empty cable catalog `select_cable_bundle` returns the
placeholder `CableType("DummyCable", 0.0, inf)` with bundle count 0 and
raises nothing, and `design_collection_network` run with an empty catalog
attaches exactly that placeholder (bundle count 0) to its edges instead of
failing. -/
theorem select_empty_catalog_dummy :
    (∀ f : ℚ, select_cable_bundle f [] = .ok (dummyCable, 0)) ∧
    dummyCable = ⟨"DummyCable", 0, ⊤⟩ ∧
    (∀ len : Node → Node → ℚ, ∃ cost,
      design_collection_network [⟨NodeKind.turbine, 1, 3, 0⟩] ⟨NodeKind.ccp, 0, 0, 0⟩ [] 12 len =
        .ok ([{ node1 := ⟨NodeKind.ccp, 0, 0, 0⟩, node2 := ⟨NodeKind.turbine, 1, 3, 0⟩,
                flow := 12, cable_type := some dummyCable, num_cables := 0 }], cost)) :=
  ⟨fun _ => rfl, rfl, fun _len => ⟨_, rfl⟩⟩

/-- C3 amended: no input validation of cable capacities exists.  Whenever
every entry's capacity is nonzero, `select_cable_bundle` returns a selection
and raises nothing — negative capacities included — and a zero-capacity entry
makes the division itself raise `ZeroDivisionError`; neither case is an
input-validation rejection. -/
theorem select_cable_bundle_no_capacity_validation :
    (∀ (f : ℚ) (opts : List CableType), (∀ c ∈ opts, c.capacity ≠ 0) →
      ∃ r, select_cable_bundle f opts = .ok r) ∧
    (∀ (f : ℚ) (pre : List CableType) (c : CableType) (post : List CableType),
      c.capacity = 0 → (∀ c' ∈ pre, c'.capacity ≠ 0) →
      select_cable_bundle f (pre ++ c :: post) = .exn "ZeroDivisionError") := by
  constructor
  · intro f opts h
    obtain ⟨r, hr⟩ := select_go_ok f opts (dummyCable, 0) ⊤ h
    exact ⟨r.1, by rw [select_cable_bundle, select_cable_bundle_full, hr]; rfl⟩
  · intro f pre c post hc hpre
    rw [select_cable_bundle, select_cable_bundle_full,
      select_go_zero_div f pre c post _ _ hc hpre]
    rfl

/-- Witness for the amended C3 theorem at concrete inputs. -/
theorem select_cable_bundle_no_capacity_validation_witness :
    (∃ r, select_cable_bundle 7 [⟨"d", -2, 3⟩] = .ok r) ∧
    select_cable_bundle 7 [⟨"z", 0, 1⟩] = .exn "ZeroDivisionError" :=
  ⟨select_cable_bundle_no_capacity_validation.1 7 [⟨"d", -2, 3⟩]
      (by with_unfolding_all decide),
    select_cable_bundle_no_capacity_validation.2 7 [] ⟨"z", 0, 1⟩ []
      (by with_unfolding_all decide) (by simp)⟩

/-- C5 amended: `dp[P]` is finite for every positive required power and every
transformer catalog whose rated powers are all nonnegative and which contains
a transformer rated at least 1 (the DP advances by `int(rated_power)`, so a
non-empty catalog alone does not suffice). -/
theorem transformer_dp_finite_of_unit_rating (max_power : ℕ)
    (transformers : List TransformerType) (g : TransformerType)
    (hpos : 0 < max_power) (hmem : g ∈ transformers) (hg1 : 1 ≤ g.rated_power)
    (hall : ∀ tr ∈ transformers, 0 ≤ tr.rated_power) :
    ∃ dp, transformer_dp max_power transformers = some dp ∧
      dp.getD max_power ⊤ ≠ ⊤ := by
  have hr : ∀ tr ∈ transformers, 0 ≤ pyInt tr.rated_power :=
    fun tr htr => pyInt_nonneg (hall tr htr)
  have hlinit : ((List.replicate (max_power + 1) (⊤ : WithTop ℚ)).set 0 0).length
      = max_power + 1 := by
    rw [List.length_set, List.length_replicate]
  have hinit : ((List.replicate (max_power + 1) (⊤ : WithTop ℚ)).set 0 0).getD 0 ⊤
      = (0 : WithTop ℚ) := by
    refine getD_set_self _ _ _ _ ?_
    rw [List.length_replicate]
    omega
  obtain ⟨dp, hdp, hfin⟩ := dp_outer_reaches max_power transformers g hmem hr
    (pyInt_ge_one hg1) (max_power + 1) 0
    ((List.replicate (max_power + 1) (⊤ : WithTop ℚ)).set 0 0) 0
    (by omega) hlinit (Nat.zero_le 0) (Nat.zero_le max_power)
    (by rw [hinit]; exact WithTop.zero_ne_top)
  refine ⟨dp, ?_, hfin⟩
  rw [transformer_dp, List.range_eq_range']
  exact hdp

/-- Witness for the amended C5 theorem: required power 2 and the catalog
`[("t", rated 1, cost 5)]`. -/
theorem transformer_dp_finite_of_unit_rating_witness :
    ((0 : ℕ) < 2 ∧ (⟨"t", 1, 5⟩ : TransformerType) ∈ [(⟨"t", 1, 5⟩ : TransformerType)] ∧
      (1 : ℚ) ≤ (⟨"t", 1, 5⟩ : TransformerType).rated_power ∧
      (∀ tr ∈ [(⟨"t", 1, 5⟩ : TransformerType)], 0 ≤ tr.rated_power)) ∧
    ∃ dp, transformer_dp 2 [⟨"t", 1, 5⟩] = some dp ∧ dp.getD 2 ⊤ ≠ ⊤ :=
  ⟨⟨by decide, List.mem_singleton.mpr rfl, by with_unfolding_all decide,
      by with_unfolding_all decide⟩,
    transformer_dp_finite_of_unit_rating 2 [⟨"t", 1, 5⟩] ⟨"t", 1, 5⟩
      (by decide) (List.mem_singleton.mpr rfl) (by with_unfolding_all decide)
      (by with_unfolding_all decide)⟩

/-- C9 amended: cable bundle selection is monotonic for every fixed catalog
whose entries have positive capacity and nonnegative (finite) cost per meter:
growing the required flow never shrinks the selected bundle's
cost-per-unit-length. -/
theorem select_cost_monotone_nonneg (opts : List CableType)
    (hopts : ∀ c ∈ opts, 0 < c.capacity ∧
      ∃ q : ℚ, c.cost_per_meter = (q : WithTop ℚ) ∧ 0 ≤ q)
    (f1 f2 : ℚ) (hf : f1 ≤ f2) :
    ∃ r1 r2, select_cable_bundle_full f1 opts = .ok r1 ∧
      select_cable_bundle_full f2 opts = .ok r2 ∧ r1.2 ≤ r2.2 := by
  have hne : ∀ c ∈ opts, c.capacity ≠ 0 := fun c hc => ne_of_gt (hopts c hc).1
  obtain ⟨r1, h1⟩ := select_go_cost f1 opts (dummyCable, 0) ⊤ hne
  obtain ⟨r2, h2⟩ := select_go_cost f2 opts (dummyCable, 0) ⊤ hne
  refine ⟨_, _, h1, h2, ?_⟩
  exact foldl_min_mono
    (forall₂_map_le f1 f2 opts (fun c hc => by
      obtain ⟨hcap, q, hq, hq0⟩ := hopts c hc
      exact bundle_cost_mono hf hcap hq hq0))
    (le_refl ⊤)

/-- Witness for the amended C9 theorem: catalog `[("m", capacity 2, cost 3)]`
and flows 1 ≤ 5. -/
theorem select_cost_monotone_nonneg_witness :
    ((∀ c ∈ [(⟨"m", 2, ((3 : ℚ) : WithTop ℚ)⟩ : CableType)], 0 < c.capacity ∧
        ∃ q : ℚ, c.cost_per_meter = (q : WithTop ℚ) ∧ 0 ≤ q) ∧ (1 : ℚ) ≤ 5) ∧
    ∃ r1 r2, select_cable_bundle_full 1 [⟨"m", 2, ((3 : ℚ) : WithTop ℚ)⟩] = .ok r1 ∧
      select_cable_bundle_full 5 [⟨"m", 2, ((3 : ℚ) : WithTop ℚ)⟩] = .ok r2 ∧
      r1.2 ≤ r2.2 :=
  ⟨⟨fun c hc => by
      rcases List.mem_singleton.mp hc with rfl
      exact ⟨by with_unfolding_all decide, 3, rfl, by with_unfolding_all decide⟩,
    by with_unfolding_all decide⟩,
    select_cost_monotone_nonneg [⟨"m", 2, ((3 : ℚ) : WithTop ℚ)⟩]
      (fun c hc => by
        rcases List.mem_singleton.mp hc with rfl
        exact ⟨by with_unfolding_all decide, 3, rfl, by with_unfolding_all decide⟩)
      1 5 (by with_unfolding_all decide)⟩

/-- C7: for every turbine list with pairwise-distinct node identifiers and a
valid CCP (identifier 0), `design_collection_network` returns exactly N edges
forming a spanning tree over the N+1 nodes rooted at the CCP (fully
connected, no cycles).  The catalog hypothesis only excludes zero-capacity
entries, which raise `ZeroDivisionError` inside bundle selection (cf. C3). -/
theorem design_collection_network_spanning_tree
    (turbines : List Node) (ccp : Node) (opts : List CableType)
    (power : ℚ) (len : Node → Node → ℚ)
    (hids : ((ccp :: turbines).map (fun n => n.node_id)).Nodup)
    (_hccp : ccp.node_id = 0)
    (hopts : ∀ c ∈ opts, c.capacity ≠ 0) :
    ∃ edges cost,
      design_collection_network turbines ccp opts power len = .ok (edges, cost) ∧
      edges.length = turbines.length ∧
      spanningB (ccp :: turbines) ccp edges = true := by
  obtain ⟨mst_edges, tree, in_mst', hbuild, hinv, hlen⟩ := build_rooted_mst_spec hids
  have hrootmem : ccp.node_id ∈ in_mst' := by
    rw [hinv.inm_eq]
    exact List.mem_cons_self _ _
  have hrank0 : rankIn in_mst' ccp.node_id = 0 := by
    rw [hinv.inm_eq, rankIn, if_pos rfl]
  obtain ⟨res, hres⟩ := dfs_some hinv.tinv power ((ccp :: turbines).length) ccp []
    hrootmem (by rw [hrank0, hlen]; omega)
  obtain ⟨edges', hassign, hfa⟩ := assign_cables_shape opts res.1 hopts mst_edges
  have h1 : design_collection_network turbines ccp opts power len =
      (match calculate_flows tree ccp power ((ccp :: turbines).length) with
        | none => Py.div
        | some flows =>
          (assign_cables opts flows mst_edges).bind fun edges =>
            Py.ok (edges, (edges.map (Edge.get_cost len)).sum)) := by
    simp only [design_collection_network]
    rw [hbuild]
    rfl
  have h2 : calculate_flows tree ccp power ((ccp :: turbines).length) = some res.1 := by
    unfold calculate_flows
    rw [hres]
    rfl
  have hmstlen : mst_edges.length = turbines.length := by
    have := congrArg List.length hinv.inm_eq
    rw [List.length_cons, List.length_map] at this
    rw [List.length_cons] at hlen
    omega
  refine ⟨edges', (edges'.map (Edge.get_cost len)).sum, ?_, ?_, ?_⟩
  · rw [h1, h2]
    show (assign_cables opts res.1 mst_edges).bind
        (fun edges => Py.ok (edges, (edges.map (Edge.get_cost len)).sum)) = _
    rw [hassign]
    rfl
  · rw [← hfa.length_eq]
    exact hmstlen
  · rw [spanningB_congr hfa]
    exact primInv_spanning hinv hlen

/-- Witness for the C7 theorem: a CCP at the origin and two turbines on a
line, with a single-cable catalog. -/
theorem design_collection_network_spanning_tree_witness :
    ((([⟨NodeKind.ccp, 0, 0, 0⟩, ⟨NodeKind.turbine, 1, 3, 0⟩,
        ⟨NodeKind.turbine, 2, 6, 0⟩] : List Node).map (fun n => n.node_id)).Nodup ∧
      (⟨NodeKind.ccp, 0, 0, 0⟩ : Node).node_id = 0 ∧
      (∀ c ∈ [(⟨"mv1", 58, ((1110 : ℚ) : WithTop ℚ)⟩ : CableType)], c.capacity ≠ 0)) ∧
    ∃ edges cost,
      design_collection_network
        [⟨NodeKind.turbine, 1, 3, 0⟩, ⟨NodeKind.turbine, 2, 6, 0⟩]
        ⟨NodeKind.ccp, 0, 0, 0⟩ [⟨"mv1", 58, ((1110 : ℚ) : WithTop ℚ)⟩] 12
        (fun _ _ => 0) = .ok (edges, cost) ∧
      edges.length = 2 ∧
      spanningB [⟨NodeKind.ccp, 0, 0, 0⟩, ⟨NodeKind.turbine, 1, 3, 0⟩,
        ⟨NodeKind.turbine, 2, 6, 0⟩] ⟨NodeKind.ccp, 0, 0, 0⟩ edges = true :=
  ⟨⟨by decide, rfl, by with_unfolding_all decide⟩,
    design_collection_network_spanning_tree
      [⟨NodeKind.turbine, 1, 3, 0⟩, ⟨NodeKind.turbine, 2, 6, 0⟩]
      ⟨NodeKind.ccp, 0, 0, 0⟩ [⟨"mv1", 58, ((1110 : ℚ) : WithTop ℚ)⟩] 12
      (fun _ _ => 0) (by decide) rfl (by with_unfolding_all decide)⟩

/-- C8: for every rooted tree produced by the builder on a CCP followed by
turbines with pairwise-distinct identifiers, `calculate_flows` succeeds and
the flow it records on each edge equals `turbine_power` times the number of
turbines in the subtree separated by that edge from the CCP (the CCP, not
being a turbine, contributes no power of its own); in particular the flows
recorded on the edges entering the root sum to `N * turbine_power`. -/
theorem calculate_flows_subtree_power
    {ccp : Node} {turbines : List Node} {edges : List Edge} {tree : TreeMap}
    (power : ℚ)
    (hids : ((ccp :: turbines).map (fun n => n.node_id)).Nodup)
    (hccp : ccp.kind = NodeKind.ccp)
    (hturb : ∀ t ∈ turbines, t.kind = NodeKind.turbine)
    (hbuild : build_rooted_mst (ccp :: turbines) = .ok (edges, tree)) :
    ∃ flows,
      calculate_flows tree ccp power (ccp :: turbines).length = some flows ∧
      (∀ e ∈ edges,
        alookup flows (e.node1.node_id, e.node2.node_id) =
          some (((subtree_turbines (ccp :: turbines) tree
            (ccp :: turbines).length e.node2.node_id).length : ℚ) * power)) ∧
      ((edges.filter (fun e => e.node1.node_id == ccp.node_id)).map
          (fun e => (alookup flows (e.node1.node_id, e.node2.node_id)).getD 0)).sum =
        (turbines.length : ℚ) * power := by
  obtain ⟨edges', tree', in_mst', hb', hprim, hlen⟩ := build_rooted_mst_spec hids
  rw [hbuild] at hb'
  have hpt : (edges, tree) = (edges', tree') := Py.ok.inj hb'
  have he : edges = edges' := congrArg Prod.fst hpt
  have ht : tree = tree' := congrArg Prod.snd hpt
  subst he
  subst ht
  have hinv := hprim.tinv
  have hco : ((treeKeyPairs tree).map (fun kce => kce.2.1.node_id)).Nodup := by
    have h := hprim.pairs_perm.map (fun kce => kce.2.1.node_id)
    rw [List.map_map] at h
    refine h.nodup_iff.mpr ?_
    have h2 := hprim.inm_nodup
    rw [hprim.inm_eq, List.nodup_cons] at h2
    exact h2.2
  have hF : in_mst'.length ≤ (ccp :: turbines).length := le_of_eq hlen
  have hccpL : ccp.node_id ∈ in_mst' :=
    primInv_covers hprim hlen ccp (List.mem_cons_self ccp turbines)
  obtain ⟨flows', hdfs, hpres, hlook⟩ :=
    dfs_spec hinv hco hids power hF (ccp :: turbines).length ccp []
      (List.mem_cons_self ccp turbines) hccpL (by omega)
  refine ⟨flows', ?_, ?_, ?_⟩
  · rw [calculate_flows, hdfs]
    rfl
  · intro e he
    have hpair : (e.node1.node_id, (e.node2, e)) ∈ treeKeyPairs tree :=
      hprim.pairs_perm.mem_iff.mpr
        (List.mem_map_of_mem (fun e => (e.node1.node_id, (e.node2, e))) he)
    have hre : Reaches tree ccp.node_id e.node1.node_id :=
      root_reaches hprim e.node1.node_id (hinv.key_mem_pair _ hpair)
    exact hlook _ hpair hre
  · have hall : ∀ e ∈ edges.filter (fun e => e.node1.node_id == ccp.node_id),
        (alookup flows' (e.node1.node_id, e.node2.node_id)).getD 0 =
          ((subtree_turbines (ccp :: turbines) tree
            (ccp :: turbines).length e.node2.node_id).length : ℚ) * power := by
      intro e he
      have he' : e ∈ edges := List.mem_of_mem_filter he
      have hpair : (e.node1.node_id, (e.node2, e)) ∈ treeKeyPairs tree :=
        hprim.pairs_perm.mem_iff.mpr
          (List.mem_map_of_mem (fun e => (e.node1.node_id, (e.node2, e))) he')
      have hre : Reaches tree ccp.node_id e.node1.node_id :=
        root_reaches hprim e.node1.node_id (hinv.key_mem_pair _ hpair)
      have hv : alookup flows' (e.node1.node_id, e.node2.node_id) =
          some (((subtree_turbines (ccp :: turbines) tree
            (ccp :: turbines).length e.node2.node_id).length : ℚ) * power) :=
        hlook _ hpair hre
      rw [hv, Option.getD_some]
    rw [List.map_congr_left hall]
    have hfm : (edges.map (fun e => (e.node1.node_id, (e.node2, e)))).filter
          (fun kce => kce.1 == ccp.node_id) =
        (edges.filter (fun e => e.node1.node_id == ccp.node_id)).map
          (fun e => (e.node1.node_id, (e.node2, e))) := by
      rw [List.filter_map]
      rfl
    have hp1 : ((treeKeyPairs tree).filter (fun kce => kce.1 == ccp.node_id)).Perm
        ((edges.filter (fun e => e.node1.node_id == ccp.node_id)).map
          (fun e => (e.node1.node_id, (e.node2, e)))) := by
      rw [← hfm]
      exact hprim.pairs_perm.filter _
    rw [keyPairs_filter_key hinv.keys_nodup ccp.node_id] at hp1
    have hsum1 := (hp1.map (fun kce => ((subtree_turbines (ccp :: turbines) tree
        (ccp :: turbines).length kce.2.1.node_id).length : ℚ) * power)).sum_eq
    rw [List.map_map, List.map_map] at hsum1
    have hcnt := cnt_unfold hinv hco hids hF (List.mem_cons_self ccp turbines)
    have hif : (if ccp.kind = NodeKind.turbine then (1 : ℕ) else 0) = 0 := by
      simp [hccp]
    rw [hif, Nat.zero_add] at hcnt
    have hroot_cnt : (subtree_turbines (ccp :: turbines) tree
        (ccp :: turbines).length ccp.node_id).length = turbines.length := by
      have hhead : (ccp.kind == NodeKind.turbine &&
          reachesB tree (ccp :: turbines).length ccp.node_id ccp.node_id) = false := by
        rw [hccp]
        rfl
      have hfilt : turbines.filter (fun n => n.kind == NodeKind.turbine &&
          reachesB tree (ccp :: turbines).length ccp.node_id n.node_id) = turbines := by
        refine List.filter_eq_self.mpr ?_
        intro t ht
        have hrch : reachesB tree (ccp :: turbines).length ccp.node_id t.node_id
            = true := by
          refine reach_at_fuel hinv hF ?_ hccpL
          exact root_reaches hprim t.node_id
            (primInv_covers hprim hlen t (List.mem_cons_of_mem ccp ht))
        rw [hturb t ht, hrch]
        rfl
      rw [subtree_turbines]
      simp only [List.filter_cons, hhead, Bool.false_eq_true, if_false]
      rw [hfilt]
    have hA : (((alookup tree ccp.node_id).getD []).map
        (fun ce => ((subtree_turbines (ccp :: turbines) tree
          (ccp :: turbines).length ce.1.node_id).length : ℚ) * power)).sum =
        (turbines.length : ℚ) * power := by
      rw [← hroot_cnt, hcnt]
      push_cast
      rw [← List.sum_map_mul_right, List.map_map]
      rfl
    exact hsum1.symm.trans hA

/-- Witness for the C8 theorem: the CCP at the origin with two turbines on a
line; the builder chains them (CCP → t1 → t2), the edge into `t2` carries one
turbine's power and the single edge entering the root carries both. -/
theorem calculate_flows_subtree_power_witness :
    ((([⟨NodeKind.ccp, 0, 0, 0⟩, ⟨NodeKind.turbine, 1, 3, 0⟩,
        ⟨NodeKind.turbine, 2, 6, 0⟩] : List Node).map (fun n => n.node_id)).Nodup ∧
      (⟨NodeKind.ccp, 0, 0, 0⟩ : Node).kind = NodeKind.ccp ∧
      (∀ t ∈ [(⟨NodeKind.turbine, 1, 3, 0⟩ : Node), ⟨NodeKind.turbine, 2, 6, 0⟩],
        t.kind = NodeKind.turbine) ∧
      build_rooted_mst [⟨NodeKind.ccp, 0, 0, 0⟩, ⟨NodeKind.turbine, 1, 3, 0⟩,
          ⟨NodeKind.turbine, 2, 6, 0⟩] =
        .ok ([⟨⟨NodeKind.ccp, 0, 0, 0⟩, ⟨NodeKind.turbine, 1, 3, 0⟩, 0, none, 0⟩,
              ⟨⟨NodeKind.turbine, 1, 3, 0⟩, ⟨NodeKind.turbine, 2, 6, 0⟩, 0, none, 0⟩],
             [(0, [(⟨NodeKind.turbine, 1, 3, 0⟩,
                 ⟨⟨NodeKind.ccp, 0, 0, 0⟩, ⟨NodeKind.turbine, 1, 3, 0⟩, 0, none, 0⟩)]),
              (1, [(⟨NodeKind.turbine, 2, 6, 0⟩,
                 ⟨⟨NodeKind.turbine, 1, 3, 0⟩, ⟨NodeKind.turbine, 2, 6, 0⟩, 0, none, 0⟩)])])) ∧
    ∃ flows,
      calculate_flows
        [(0, [(⟨NodeKind.turbine, 1, 3, 0⟩,
            ⟨⟨NodeKind.ccp, 0, 0, 0⟩, ⟨NodeKind.turbine, 1, 3, 0⟩, 0, none, 0⟩)]),
         (1, [(⟨NodeKind.turbine, 2, 6, 0⟩,
            ⟨⟨NodeKind.turbine, 1, 3, 0⟩, ⟨NodeKind.turbine, 2, 6, 0⟩, 0, none, 0⟩)])]
        ⟨NodeKind.ccp, 0, 0, 0⟩ 12 3 = some flows ∧
      (∀ e ∈ [(⟨⟨NodeKind.ccp, 0, 0, 0⟩, ⟨NodeKind.turbine, 1, 3, 0⟩, 0, none, 0⟩ : Edge),
          ⟨⟨NodeKind.turbine, 1, 3, 0⟩, ⟨NodeKind.turbine, 2, 6, 0⟩, 0, none, 0⟩],
        alookup flows (e.node1.node_id, e.node2.node_id) =
          some (((subtree_turbines [⟨NodeKind.ccp, 0, 0, 0⟩, ⟨NodeKind.turbine, 1, 3, 0⟩,
            ⟨NodeKind.turbine, 2, 6, 0⟩]
            [(0, [(⟨NodeKind.turbine, 1, 3, 0⟩,
                ⟨⟨NodeKind.ccp, 0, 0, 0⟩, ⟨NodeKind.turbine, 1, 3, 0⟩, 0, none, 0⟩)]),
             (1, [(⟨NodeKind.turbine, 2, 6, 0⟩,
                ⟨⟨NodeKind.turbine, 1, 3, 0⟩, ⟨NodeKind.turbine, 2, 6, 0⟩, 0, none, 0⟩)])]
            3 e.node2.node_id).length : ℚ) * 12)) ∧
      ((([(⟨⟨NodeKind.ccp, 0, 0, 0⟩, ⟨NodeKind.turbine, 1, 3, 0⟩, 0, none, 0⟩ : Edge),
          ⟨⟨NodeKind.turbine, 1, 3, 0⟩, ⟨NodeKind.turbine, 2, 6, 0⟩, 0, none, 0⟩].filter
            (fun e => e.node1.node_id == (0 : ℤ))).map
          (fun e => (alookup flows (e.node1.node_id, e.node2.node_id)).getD 0)).sum =
        ((2 : ℕ) : ℚ) * 12) :=
  ⟨⟨by decide, rfl, by decide, by with_unfolding_all rfl⟩,
    @calculate_flows_subtree_power ⟨NodeKind.ccp, 0, 0, 0⟩
      [⟨NodeKind.turbine, 1, 3, 0⟩, ⟨NodeKind.turbine, 2, 6, 0⟩]
      [⟨⟨NodeKind.ccp, 0, 0, 0⟩, ⟨NodeKind.turbine, 1, 3, 0⟩, 0, none, 0⟩,
       ⟨⟨NodeKind.turbine, 1, 3, 0⟩, ⟨NodeKind.turbine, 2, 6, 0⟩, 0, none, 0⟩]
      [(0, [(⟨NodeKind.turbine, 1, 3, 0⟩,
          ⟨⟨NodeKind.ccp, 0, 0, 0⟩, ⟨NodeKind.turbine, 1, 3, 0⟩, 0, none, 0⟩)]),
       (1, [(⟨NodeKind.turbine, 2, 6, 0⟩,
          ⟨⟨NodeKind.turbine, 1, 3, 0⟩, ⟨NodeKind.turbine, 2, 6, 0⟩, 0, none, 0⟩)])]
      12 (by decide) rfl (by decide) (by with_unfolding_all rfl)⟩

end WindFarm
